import Mathlib

/-!
# Baltimore Bird backend — verification of spec claims

Shallow embedding of the relevant parts of the Baltimore Bird backend
(Python) into Lean 4, together with proofs settling the spec claims.

Conventions used throughout:
* Python floats are modelled as exact rationals (`ℚ`); `int(r)` on a
  nonnegative float is modelled as `Int.toNat ⌊r⌋`.
* NumPy arrays are modelled as `List ℚ`; `arr[j]` with an in-range index
  is modelled as `List.getD arr j 0`.
* SQLite tables and Python dicts are modelled as insertion-ordered
  association lists.
* Wall-clock times (`time.time()`, `datetime`) are rationals passed
  explicitly to each operation.
-/

namespace BaltimoreBird

/-! ## `core/downsampling.py` — LTTB (Largest Triangle Three Buckets)

Embedding of `_lttb_numba` (the implementation used by `lttb_downsample`
when Numba is available; `_lttb_numpy` computes the same index selection).
The imperative loop over buckets `i = 1 .. threshold-2` carries the index
`a` of the previously selected point; it is modelled by the recursion
`sel`, and the filled output arrays by mapping the selected indices over
the inputs. -/

/-- `bucket_size = (n - 2) / (threshold - 2)` (float division, modelled
exactly in `ℚ`). -/
def bucketSize (n t : ℕ) : ℚ := ((n : ℚ) - 2) / ((t : ℚ) - 2)

/-- `int(i * bucket_size) + 1`, the bucket boundary used for both the
selection range and the averaging range. -/
def bIdx (n t i : ℕ) : ℕ := (⌊(i : ℚ) * bucketSize n t⌋).toNat + 1

/-- Mean of `l[s:e]` as computed by the Numba kernel: a running sum divided
by the count when the count is positive, and `0.0` otherwise. -/
def avgOf (l : List ℚ) (s e : ℕ) : ℚ :=
  if s < e then (((List.range' s (e - s)).map (fun j => l.getD j 0)).sum) / ((e : ℚ) - (s : ℚ))
  else 0

/-- The triangle area `abs((x[a]-avg_x)*(y[j]-y[a]) - (x[a]-x[j])*(avg_y-y[a]))`. -/
def triArea (xs ys : List ℚ) (a : ℕ) (ax ay : ℚ) (j : ℕ) : ℚ :=
  |(xs.getD a 0 - ax) * (ys.getD j 0 - ys.getD a 0)
    - (xs.getD a 0 - xs.getD j 0) * (ay - ys.getD a 0)|

/-- The inner selection loop: starting from `max_area = -1.0` and
`max_area_point = range_start`, scan `j = s, …, s+cnt-1` and update on a
strictly greater area (so ties keep the lowest index). Returns the selected
index. -/
def argmaxFrom (f : ℕ → ℚ) (s cnt : ℕ) : ℕ :=
  ((List.range' s cnt).foldl (fun p j => if f j > p.1 then (f j, j) else p) ((-1 : ℚ), s)).2

/-- `sel xs ys t i` is the input index selected for output slot `i`:
slot `0` is the first input point (`a = 0` initially), and slot `i+1` is
chosen by the loop body for bucket `i+1` using the previously selected
index `sel xs ys t i` as the anchor point. -/
def sel (xs ys : List ℚ) (t : ℕ) : ℕ → ℕ
  | 0 => 0
  | i + 1 =>
    let n := xs.length
    let a := sel xs ys t i
    let ax := avgOf xs (bIdx n t (i + 2)) (min (bIdx n t (i + 3)) n)
    let ay := avgOf ys (bIdx n t (i + 2)) (min (bIdx n t (i + 3)) n)
    argmaxFrom (triArea xs ys a ax ay) (bIdx n t (i + 1))
      (min (bIdx n t (i + 2)) n - bIdx n t (i + 1))

/-- The area function scanned when selecting output slot `i+1` (bucket
`i+1`), anchored at the previously selected index `sel xs ys t i`. -/
def bucketArea (xs ys : List ℚ) (t i : ℕ) : ℕ → ℚ :=
  triArea xs ys (sel xs ys t i)
    (avgOf xs (bIdx xs.length t (i + 2)) (min (bIdx xs.length t (i + 3)) xs.length))
    (avgOf ys (bIdx xs.length t (i + 2)) (min (bIdx xs.length t (i + 3)) xs.length))

theorem sel_succ_eq (xs ys : List ℚ) (t i : ℕ) :
    sel xs ys t (i + 1) =
      argmaxFrom (bucketArea xs ys t i) (bIdx xs.length t (i + 1))
        (min (bIdx xs.length t (i + 2)) xs.length - bIdx xs.length t (i + 1)) := rfl

/-- The input indices of the produced sample: index `0`, the selected index
of each middle bucket `i = 1 .. t-2`, and the last index `n-1`. -/
def lttbIndices (xs ys : List ℚ) (t : ℕ) : List ℕ :=
  0 :: ((List.range' 1 (t - 2)).map (sel xs ys t) ++ [xs.length - 1])

/-- `lttb_downsample` / `_lttb_numba`: short-circuit when
`threshold >= n or threshold <= 2`, otherwise produce the selected points.
(The float32 conversion performed by the wrapper is modelled as exact.) -/
def lttb (xs ys : List ℚ) (t : ℕ) : List ℚ × List ℚ :=
  if t ≥ xs.length ∨ t ≤ 2 then (xs, ys)
  else ((lttbIndices xs ys t).map (fun i => xs.getD i 0),
        (lttbIndices xs ys t).map (fun i => ys.getD i 0))

/-! ### Structural lemmas about the LTTB index selection -/

theorem one_lt_bucketSize {n t : ℕ} (h2 : 2 < t) (hn : t < n) : 1 < bucketSize n t := by
  have ht : (0 : ℚ) < (t : ℚ) - 2 := by
    have : (2 : ℚ) < (t : ℚ) := by exact_mod_cast h2
    linarith
  have hnt : (t : ℚ) - 2 < (n : ℚ) - 2 := by
    have : (t : ℚ) < (n : ℚ) := by exact_mod_cast hn
    linarith
  rw [bucketSize, lt_div_iff₀ ht, one_mul]
  linarith

theorem bIdx_lt_succ {n t : ℕ} (hbs : 1 < bucketSize n t) (i : ℕ) :
    bIdx n t i < bIdx n t (i + 1) := by
  have hbs0 : (0 : ℚ) ≤ bucketSize n t := by linarith
  have h1 : ((i : ℚ)) * bucketSize n t + 1 ≤ ((i + 1 : ℕ) : ℚ) * bucketSize n t := by
    push_cast
    nlinarith
  have h2 : ⌊(i : ℚ) * bucketSize n t⌋ + 1 ≤ ⌊((i + 1 : ℕ) : ℚ) * bucketSize n t⌋ := by
    have := Int.floor_le_floor h1
    rwa [Int.floor_add_one] at this
  have h0 : 0 ≤ ⌊(i : ℚ) * bucketSize n t⌋ := by
    apply Int.floor_nonneg.2
    positivity
  unfold bIdx
  omega

theorem bIdx_le_of_le {n t : ℕ} (h2 : 2 < t) (hn : t < n) {i : ℕ} (hi : i ≤ t - 2) :
    bIdx n t i ≤ n - 1 := by
  have ht : (0 : ℚ) < (t : ℚ) - 2 := by
    have : (2 : ℚ) < (t : ℚ) := by exact_mod_cast h2
    linarith
  have hval : (i : ℚ) * bucketSize n t ≤ ((n : ℚ) - 2) := by
    have hile : (i : ℚ) ≤ (t : ℚ) - 2 := by
      have : (i : ℚ) ≤ ((t - 2 : ℕ) : ℚ) := by exact_mod_cast hi
      have h2' : (2 : ℕ) ≤ t := by omega
      push_cast [Nat.cast_sub h2'] at this
      linarith
    have hbs0 : (0 : ℚ) ≤ bucketSize n t := by
      have := one_lt_bucketSize h2 hn
      linarith
    calc (i : ℚ) * bucketSize n t ≤ ((t : ℚ) - 2) * bucketSize n t := by nlinarith
      _ = (n : ℚ) - 2 := by
          rw [bucketSize]
          field_simp
  have hfl : ⌊(i : ℚ) * bucketSize n t⌋ ≤ (n : ℤ) - 2 := by
    have : ((n : ℚ) - 2) = (((n : ℤ) - 2 : ℤ) : ℚ) := by push_cast; ring
    rw [this] at hval
    exact Int.le_floor.1 (le_of_eq rfl) |>.trans (Int.floor_le_floor hval) |>.trans_eq
      (Int.floor_intCast _)
  have hn2 : 2 ≤ n := by omega
  unfold bIdx
  omega

theorem two_le_bIdx_one {n t : ℕ} (hbs : 1 < bucketSize n t) : 2 ≤ bIdx n t 1 := by
  have : 1 ≤ ⌊((1 : ℕ) : ℚ) * bucketSize n t⌋ := by
    rw [Nat.cast_one, one_mul]
    exact Int.le_floor.2 (by exact_mod_cast hbs.le)
  unfold bIdx
  omega

theorem argmaxFold_spec (f : ℕ → ℚ) :
    ∀ (l : List ℕ) (b : ℚ) (i : ℕ), l.Pairwise (· < ·) → (∀ j ∈ l, i < j) → b = f i →
      (l.foldl (fun p j => if f j > p.1 then (f j, j) else p) (b, i)).1 =
          f (l.foldl (fun p j => if f j > p.1 then (f j, j) else p) (b, i)).2 ∧
        ((l.foldl (fun p j => if f j > p.1 then (f j, j) else p) (b, i)).2 = i ∨
          (l.foldl (fun p j => if f j > p.1 then (f j, j) else p) (b, i)).2 ∈ l) ∧
        b ≤ (l.foldl (fun p j => if f j > p.1 then (f j, j) else p) (b, i)).1 ∧
        (∀ j ∈ l, f j ≤ (l.foldl (fun p j => if f j > p.1 then (f j, j) else p) (b, i)).1) ∧
        (∀ j ∈ l, j < (l.foldl (fun p j => if f j > p.1 then (f j, j) else p) (b, i)).2 →
          f j < (l.foldl (fun p j => if f j > p.1 then (f j, j) else p) (b, i)).1) ∧
        ((l.foldl (fun p j => if f j > p.1 then (f j, j) else p) (b, i)).2 ≠ i →
          b < (l.foldl (fun p j => if f j > p.1 then (f j, j) else p) (b, i)).1) ∧
        i ≤ (l.foldl (fun p j => if f j > p.1 then (f j, j) else p) (b, i)).2 := by
  intro l
  induction l with
  | nil =>
    intro b i _ _ hb
    refine ⟨hb, Or.inl rfl, le_refl _, ?_, ?_, ?_, le_refl _⟩ <;> simp
  | cons a l ih =>
    intro b i hpw hgt hb
    have hia : i < a := hgt a (by simp)
    have hpw' : l.Pairwise (· < ·) := hpw.of_cons
    have hal : ∀ j ∈ l, a < j := fun j hj => (List.pairwise_cons.1 hpw).1 j hj
    by_cases hcmp : f a > b
    · have hstep : (List.foldl (fun p j => if f j > p.1 then (f j, j) else p) (b, i) (a :: l)) =
          List.foldl (fun p j => if f j > p.1 then (f j, j) else p) (f a, a) l := by
        simp [List.foldl_cons, if_pos hcmp]
      obtain ⟨r1, r2, r3, r4, r5, r6, r7⟩ := ih (f a) a hpw' hal rfl
      rw [hstep]
      refine ⟨r1, ?_, ?_, ?_, ?_, ?_, ?_⟩
      · rcases r2 with h | h
        · exact Or.inr (by simp [h])
        · exact Or.inr (by simp [h])
      · exact le_of_lt (lt_of_lt_of_le hcmp r3)
      · intro j hj
        rcases List.mem_cons.1 hj with rfl | hj'
        · exact r3
        · exact r4 j hj'
      · intro j hj hjlt
        rcases List.mem_cons.1 hj with rfl | hj'
        · exact r6 (fun hEq => by omega)
        · exact r5 j hj' hjlt
      · intro _
        exact lt_of_lt_of_le hcmp r3
      · omega
    · have hstep : (List.foldl (fun p j => if f j > p.1 then (f j, j) else p) (b, i) (a :: l)) =
          List.foldl (fun p j => if f j > p.1 then (f j, j) else p) (b, i) l := by
        simp [List.foldl_cons, if_neg hcmp]
      obtain ⟨r1, r2, r3, r4, r5, r6, r7⟩ := ih b i hpw' (fun j hj => hgt j (by simp [hj])) hb
      rw [hstep]
      refine ⟨r1, ?_, r3, ?_, ?_, r6, r7⟩
      · rcases r2 with h | h
        · exact Or.inl h
        · exact Or.inr (by simp [h])
      · intro j hj
        rcases List.mem_cons.1 hj with rfl | hj'
        · exact le_trans (not_lt.1 hcmp) r3
        · exact r4 j hj'
      · intro j hj hjlt
        rcases List.mem_cons.1 hj with rfl | hj'
        · rcases r2 with h | h
          · omega
          · have hblt := r6 (by
              intro hEq
              have := hal _ (hEq ▸ h)
              omega)
            exact lt_of_le_of_lt (not_lt.1 hcmp) hblt
        · exact r5 j hj' hjlt

theorem argmaxFrom_spec (f : ℕ → ℚ) (hf : ∀ j, 0 ≤ f j) (s cnt : ℕ) (hc : 0 < cnt) :
    s ≤ argmaxFrom f s cnt ∧ argmaxFrom f s cnt < s + cnt ∧
      (∀ j, s ≤ j → j < s + cnt → f j ≤ f (argmaxFrom f s cnt)) ∧
      (∀ j, s ≤ j → j < s + cnt → j < argmaxFrom f s cnt → f j < f (argmaxFrom f s cnt)) := by
  obtain ⟨m, rfl⟩ : ∃ m, cnt = m + 1 := ⟨cnt - 1, by omega⟩
  have hfirst : (-1 : ℚ) < f s := lt_of_lt_of_le (by norm_num) (hf s)
  have hrange : List.range' s (m + 1) = s :: List.range' (s + 1) m := List.range'_succ ..
  have hpw : (List.range' (s + 1) m).Pairwise (· < ·) := List.pairwise_lt_range' ..
  have hgt : ∀ j ∈ List.range' (s + 1) m, s < j := by
    intro j hj
    rw [List.mem_range'_1] at hj
    omega
  obtain ⟨r1, r2, r3, r4, r5, r6, r7⟩ := argmaxFold_spec f (List.range' (s + 1) m) (f s) s hpw hgt rfl
  have hfold : argmaxFrom f s (m + 1) =
      (List.foldl (fun p j => if f j > p.1 then (f j, j) else p) (f s, s)
        (List.range' (s + 1) m)).2 := by
    unfold argmaxFrom
    rw [hrange, List.foldl_cons, if_pos hfirst]
  constructor
  · rw [hfold]; exact r7
  refine ⟨?_, ?_, ?_⟩
  · rw [hfold]
    rcases r2 with h | h
    · omega
    · rw [List.mem_range'_1] at h
      omega
  · intro j hjs hjlt
    rw [hfold, ← r1]
    rcases Nat.eq_or_lt_of_le hjs with rfl | hjgt
    · exact r3
    · exact r4 j (by rw [List.mem_range'_1]; omega)
  · intro j hjs hjlt hsel
    rw [hfold, ← r1]
    rcases Nat.eq_or_lt_of_le hjs with rfl | hjgt
    · refine lt_of_le_of_lt (le_refl _) (r6 ?_)
      intro hEq
      rw [hfold, hEq] at hsel
      omega
    · exact r5 j (by rw [List.mem_range'_1]; omega) (by rw [hfold] at hsel; exact hsel)

theorem bucketArea_nonneg (xs ys : List ℚ) (t i j : ℕ) : 0 ≤ bucketArea xs ys t i j :=
  abs_nonneg _

/-- Bounds and optimality of the index selected for output slot `i+1`
(the middle bucket `i+1`), for `i + 1 ≤ t - 2` and `2 < t < n`. -/
theorem sel_spec (xs ys : List ℚ) (t : ℕ) (h2 : 2 < t) (hn : t < xs.length)
    {i : ℕ} (hi : i + 1 ≤ t - 2) :
    bIdx xs.length t (i + 1) ≤ sel xs ys t (i + 1) ∧
      sel xs ys t (i + 1) < min (bIdx xs.length t (i + 2)) xs.length ∧
      (∀ j, bIdx xs.length t (i + 1) ≤ j → j < min (bIdx xs.length t (i + 2)) xs.length →
        bucketArea xs ys t i j ≤ bucketArea xs ys t i (sel xs ys t (i + 1))) ∧
      (∀ j, bIdx xs.length t (i + 1) ≤ j → j < sel xs ys t (i + 1) →
        bucketArea xs ys t i j < bucketArea xs ys t i (sel xs ys t (i + 1))) := by
  have hbs : 1 < bucketSize xs.length t := one_lt_bucketSize h2 hn
  have hlt : bIdx xs.length t (i + 1) < bIdx xs.length t (i + 2) := bIdx_lt_succ hbs (i + 1)
  have hle : bIdx xs.length t (i + 1) ≤ xs.length - 1 := bIdx_le_of_le h2 hn hi
  have hnpos : 0 < xs.length := by omega
  have hcnt : 0 < min (bIdx xs.length t (i + 2)) xs.length - bIdx xs.length t (i + 1) := by
    omega
  obtain ⟨a1, a2, a3, a4⟩ := argmaxFrom_spec (bucketArea xs ys t i)
    (bucketArea_nonneg xs ys t i) (bIdx xs.length t (i + 1))
    (min (bIdx xs.length t (i + 2)) xs.length - bIdx xs.length t (i + 1)) hcnt
  have hsum : bIdx xs.length t (i + 1) +
      (min (bIdx xs.length t (i + 2)) xs.length - bIdx xs.length t (i + 1)) =
      min (bIdx xs.length t (i + 2)) xs.length := by omega
  rw [hsum] at a2 a3 a4
  rw [sel_succ_eq]
  exact ⟨a1, a2, a3, fun j hj hjlt => a4 j hj (lt_trans hjlt a2) hjlt⟩

theorem chain'_map_range' {α : Type} (f : ℕ → α) (S : α → α → Prop) :
    ∀ (n s : ℕ), (∀ k, s ≤ k → k + 1 < s + n → S (f k) (f (k + 1))) →
      List.Chain' S ((List.range' s n).map f) := by
  intro n
  induction n with
  | zero => intro s _; simp
  | succ m ih =>
    intro s h
    rw [List.range'_succ, List.map_cons]
    cases m with
    | zero => simp
    | succ m' =>
      rw [List.range'_succ, List.map_cons]
      refine List.chain'_cons.2 ⟨h s le_rfl (by omega), ?_⟩
      have := ih (s + 1) (fun k hk hk' => h k (by omega) (by omega))
      rwa [List.range'_succ, List.map_cons] at this

theorem sel_one_pos (xs ys : List ℚ) (t : ℕ) (h2 : 2 < t) (hn : t < xs.length) :
    0 < sel xs ys t 1 := by
  have h1 : 1 ≤ t - 2 := by omega
  have h := (sel_spec xs ys t h2 hn (i := 0) h1).1
  have h' : bIdx xs.length t 1 ≤ sel xs ys t 1 := h
  have h2' := two_le_bIdx_one (one_lt_bucketSize h2 hn) (n := xs.length)
  omega

theorem sel_step (xs ys : List ℚ) (t : ℕ) (h2 : 2 < t) (hn : t < xs.length)
    {k : ℕ} (hk : 1 ≤ k) (hk2 : k + 1 ≤ t - 2) : sel xs ys t k < sel xs ys t (k + 1) := by
  obtain ⟨i, rfl⟩ : ∃ i, k = i + 1 := ⟨k - 1, by omega⟩
  have hub := (sel_spec xs ys t h2 hn (i := i) (by omega)).2.1
  have hlb' : bIdx xs.length t (i + 2) ≤ sel xs ys t (i + 2) :=
    (sel_spec xs ys t h2 hn (i := i + 1) hk2).1
  show sel xs ys t (i + 1) < sel xs ys t (i + 2)
  omega

theorem sel_last_le (xs ys : List ℚ) (t : ℕ) (h2 : 2 < t) (hn : t < xs.length) :
    sel xs ys t (t - 2) ≤ xs.length - 1 := by
  obtain ⟨i, hi⟩ : ∃ i, t - 2 = i + 1 := ⟨t - 3, by omega⟩
  have hub := (sel_spec xs ys t h2 hn (i := i) (le_of_eq hi.symm)).2.1
  rw [← hi] at hub
  omega

/-- **C1** (amended). For `2 < n < len(x)`, `lttb_downsample` returns `n`
points; the first output point is the (conversion-exact) first input point
and the last is the last input point; the selected input indices are
nondecreasing, and strictly increasing except that the second-to-last
output point may coincide with the last input point (the claim's "strictly
increasing" fails there, see the counterexample); inside each bucket the
selected point maximises the triangle area and ties are broken by the
lowest index.  Determinism is immediate since the embedding is a pure
function of its arguments. -/
theorem lttb_output_spec (xs ys : List ℚ) (t : ℕ) (h2 : 2 < t) (hn : t < xs.length) :
    (lttbIndices xs ys t).length = t ∧
      (lttbIndices xs ys t).head? = some 0 ∧
      (lttbIndices xs ys t).getLast? = some (xs.length - 1) ∧
      List.Chain' (· ≤ ·) (lttbIndices xs ys t) ∧
      List.Chain' (· < ·) (lttbIndices xs ys t).dropLast ∧
      lttb xs ys t = ((lttbIndices xs ys t).map (fun i => xs.getD i 0),
        (lttbIndices xs ys t).map (fun i => ys.getD i 0)) ∧
      (lttb xs ys t).1.head? = some (xs.getD 0 0) ∧
      (lttb xs ys t).1.getLast? = some (xs.getD (xs.length - 1) 0) ∧
      (∀ i, i + 1 ≤ t - 2 →
        (∀ j, bIdx xs.length t (i + 1) ≤ j → j < min (bIdx xs.length t (i + 2)) xs.length →
          bucketArea xs ys t i j ≤ bucketArea xs ys t i (sel xs ys t (i + 1))) ∧
        (∀ j, bIdx xs.length t (i + 1) ≤ j → j < sel xs ys t (i + 1) →
          bucketArea xs ys t i j < bucketArea xs ys t i (sel xs ys t (i + 1)))) := by
  obtain ⟨u, hu⟩ : ∃ u, t - 2 = u + 1 := ⟨t - 3, by omega⟩
  have hcond : ¬(t ≥ xs.length ∨ t ≤ 2) := by omega
  have hlttb : lttb xs ys t = ((lttbIndices xs ys t).map (fun i => xs.getD i 0),
      (lttbIndices xs ys t).map (fun i => ys.getD i 0)) := by
    unfold lttb
    rw [if_neg hcond]
  have hmidlast : ((List.range' 1 (t - 2)).map (sel xs ys t)).getLast? =
      some (sel xs ys t (t - 2)) := by
    rw [List.getLast?_map, hu, List.getLast?_range']
    simp
  have hconsmid : (0 : ℕ) :: (List.range' 1 (t - 2)).map (sel xs ys t) =
      ((0 : ℕ) :: (List.range' 1 (t - 2)).map (sel xs ys t)) := rfl
  have hchainmid : List.Chain' (· < ·) ((0 : ℕ) :: (List.range' 1 (t - 2)).map (sel xs ys t)) := by
    rw [hu, List.range'_succ, List.map_cons]
    refine List.chain'_cons.2 ⟨sel_one_pos xs ys t h2 hn, ?_⟩
    have : List.Chain' (· < ·) ((List.range' 1 (u + 1)).map (sel xs ys t)) := by
      apply chain'_map_range'
      intro k hk hk'
      exact sel_step xs ys t h2 hn hk (by omega)
    rwa [List.range'_succ, List.map_cons] at this
  have hfront_last : ((0 : ℕ) :: (List.range' 1 (t - 2)).map (sel xs ys t)).getLast? =
      some (sel xs ys t (t - 2)) := by
    cases hmap : (List.range' 1 (t - 2)).map (sel xs ys t) with
    | nil => rw [hmap] at hmidlast; simp at hmidlast
    | cons a l =>
      rw [hmap] at hmidlast
      rw [List.getLast?_cons_cons, hmidlast]
  have hsplit : lttbIndices xs ys t =
      ((0 : ℕ) :: (List.range' 1 (t - 2)).map (sel xs ys t)) ++ [xs.length - 1] := by
    unfold lttbIndices
    rw [List.cons_append]
  refine ⟨?_, rfl, ?_, ?_, ?_, hlttb, ?_, ?_, ?_⟩
  · unfold lttbIndices
    simp [List.length_range']
    omega
  · rw [hsplit, List.getLast?_concat]
  · rw [hsplit]
    apply List.chain'_append.2
    refine ⟨hchainmid.imp (fun a b => le_of_lt), List.chain'_singleton _, ?_⟩
    intro x hx y hy
    rw [hfront_last] at hx
    simp only [List.head?_cons, Option.mem_some_iff] at hx hy
    subst hx
    subst hy
    exact sel_last_le xs ys t h2 hn
  · rw [hsplit, List.dropLast_concat]
    exact hchainmid
  · rw [hlttb]
    rfl
  · rw [hlttb]
    simp only [hsplit, List.map_cons, List.map_append, List.map_nil]
    rw [List.getLast?_concat]
  · intro i hi
    exact ⟨(sel_spec xs ys t h2 hn hi).2.2.1, (sel_spec xs ys t h2 hn hi).2.2.2⟩

/-- **C1** witness: the amended theorem applied at the concrete input
`x = [0..5]`, `y = [0,1,0,1,0,1]`, `n = 4`, with both hypotheses
discharged there. -/
theorem lttb_output_spec_witness :
    2 < 4 ∧ 4 < ([(0 : ℚ), 1, 2, 3, 4, 5]).length ∧
      ((lttbIndices [(0 : ℚ), 1, 2, 3, 4, 5] [0, 1, 0, 1, 0, 1] 4).length = 4 ∧
        (lttbIndices [(0 : ℚ), 1, 2, 3, 4, 5] [0, 1, 0, 1, 0, 1] 4).head? = some 0 ∧
        (lttbIndices [(0 : ℚ), 1, 2, 3, 4, 5] [0, 1, 0, 1, 0, 1] 4).getLast? =
          some (([(0 : ℚ), 1, 2, 3, 4, 5]).length - 1) ∧
        List.Chain' (· ≤ ·) (lttbIndices [(0 : ℚ), 1, 2, 3, 4, 5] [0, 1, 0, 1, 0, 1] 4) ∧
        List.Chain' (· < ·) (lttbIndices [(0 : ℚ), 1, 2, 3, 4, 5] [0, 1, 0, 1, 0, 1] 4).dropLast ∧
        lttb [(0 : ℚ), 1, 2, 3, 4, 5] [0, 1, 0, 1, 0, 1] 4 =
          ((lttbIndices [(0 : ℚ), 1, 2, 3, 4, 5] [0, 1, 0, 1, 0, 1] 4).map
              (fun i => ([(0 : ℚ), 1, 2, 3, 4, 5]).getD i 0),
            (lttbIndices [(0 : ℚ), 1, 2, 3, 4, 5] [0, 1, 0, 1, 0, 1] 4).map
              (fun i => ([(0 : ℚ), 1, 0, 1, 0, 1] : List ℚ).getD i 0)) ∧
        (lttb [(0 : ℚ), 1, 2, 3, 4, 5] [0, 1, 0, 1, 0, 1] 4).1.head? =
          some (([(0 : ℚ), 1, 2, 3, 4, 5]).getD 0 0) ∧
        (lttb [(0 : ℚ), 1, 2, 3, 4, 5] [0, 1, 0, 1, 0, 1] 4).1.getLast? =
          some (([(0 : ℚ), 1, 2, 3, 4, 5]).getD (([(0 : ℚ), 1, 2, 3, 4, 5]).length - 1) 0) ∧
        (∀ i, i + 1 ≤ 4 - 2 →
          (∀ j, bIdx ([(0 : ℚ), 1, 2, 3, 4, 5]).length 4 (i + 1) ≤ j →
            j < min (bIdx ([(0 : ℚ), 1, 2, 3, 4, 5]).length 4 (i + 2))
                ([(0 : ℚ), 1, 2, 3, 4, 5]).length →
            bucketArea [(0 : ℚ), 1, 2, 3, 4, 5] [0, 1, 0, 1, 0, 1] 4 i j ≤
              bucketArea [(0 : ℚ), 1, 2, 3, 4, 5] [0, 1, 0, 1, 0, 1] 4 i
                (sel [(0 : ℚ), 1, 2, 3, 4, 5] [0, 1, 0, 1, 0, 1] 4 (i + 1))) ∧
          (∀ j, bIdx ([(0 : ℚ), 1, 2, 3, 4, 5]).length 4 (i + 1) ≤ j →
            j < sel [(0 : ℚ), 1, 2, 3, 4, 5] [0, 1, 0, 1, 0, 1] 4 (i + 1) →
            bucketArea [(0 : ℚ), 1, 2, 3, 4, 5] [0, 1, 0, 1, 0, 1] 4 i j <
              bucketArea [(0 : ℚ), 1, 2, 3, 4, 5] [0, 1, 0, 1, 0, 1] 4 i
                (sel [(0 : ℚ), 1, 2, 3, 4, 5] [0, 1, 0, 1, 0, 1] 4 (i + 1))))) :=
  ⟨by norm_num, by norm_num,
    lttb_output_spec [(0 : ℚ), 1, 2, 3, 4, 5] [0, 1, 0, 1, 0, 1] 4 (by norm_num) (by norm_num)⟩

/-- **C1** counterexample: at `x = [0,1,2,3,4]`, `y = [0,1,0,1,0]`,
`n = 4`, the selected input indices are `[0, 3, 4, 4]`: the last middle
bucket is forced onto the final input index, so the output indices are not
strictly increasing (the last two output points are the same input point),
refuting the claim as stated. -/
theorem lttb_strict_counterexample :
    lttbIndices [(0 : ℚ), 1, 2, 3, 4] [0, 1, 0, 1, 0] 4 = [0, 3, 4, 4] ∧
      ¬ List.Chain' (· < ·) (lttbIndices [(0 : ℚ), 1, 2, 3, 4] [0, 1, 0, 1, 0] 4) ∧
      lttb [(0 : ℚ), 1, 2, 3, 4] [0, 1, 0, 1, 0] 4 = ([0, 3, 4, 4], [0, 1, 0, 0]) := by
  have h1 : bIdx 5 4 1 = 2 := by norm_num [bIdx, bucketSize]; try omega
  have h2 : bIdx 5 4 2 = 4 := by norm_num [bIdx, bucketSize]; try omega
  have h3 : bIdx 5 4 3 = 5 := by norm_num [bIdx, bucketSize]; try omega
  have h4 : bIdx 5 4 4 = 7 := by norm_num [bIdx, bucketSize]; try omega
  have hidx : lttbIndices [(0 : ℚ), 1, 2, 3, 4] [0, 1, 0, 1, 0] 4 = [0, 3, 4, 4] := by
    simp [lttbIndices, sel, argmaxFrom, avgOf, triArea, h1, h2, h3, h4, List.range']
    norm_num
  refine ⟨hidx, ?_, ?_⟩
  · rw [hidx]
    simp [List.chain'_cons]
  · unfold lttb
    rw [if_neg (by norm_num), hidx]
    norm_num

/-- **C6** (confirmed): with `n ≤ 2` or `n ≥ len(x)`, `lttb_downsample`
short-circuits and returns the input unchanged (same values, same length;
the wrapper's float32 conversion is modelled as exact). -/
theorem lttb_passthrough (xs ys : List ℚ) (t : ℕ) (h : t ≤ 2 ∨ xs.length ≤ t) :
    lttb xs ys t = (xs, ys) := by
  unfold lttb
  rcases h with h | h
  · rw [if_pos (Or.inr h)]
  · rw [if_pos (Or.inl h)]

/-- **C6** witness: the theorem applied at the spec's concrete instance
`x = [0..99]` (with an arbitrary equal-length `y`; the short-circuit never
reads the values) and `n = 2`. -/
theorem lttb_passthrough_witness :
    ((2 : ℕ) ≤ 2 ∨ ((List.range 100).map (fun k => (k : ℚ))).length ≤ 2) ∧
      lttb ((List.range 100).map (fun k => (k : ℚ)))
          ((List.range 100).map (fun k => (k : ℚ) * 2)) 2 =
        ((List.range 100).map (fun k => (k : ℚ)), (List.range 100).map (fun k => (k : ℚ) * 2)) :=
  ⟨Or.inl le_rfl, lttb_passthrough _ _ 2 (Or.inl le_rfl)⟩

/-! ## `auth.py` — rate limiter

State: `_attempts : key → list of timestamps`, `_lockouts : key → lockout
expiry time`.  `time.time()` values are rationals passed explicitly;
`int(r)` on a positive float is `Int.toNat ⌊r⌋` (truncation toward zero). -/

def RATE_LIMIT_WINDOW : ℚ := 900

def RATE_LIMIT_MAX_ATTEMPTS : ℕ := 5

def RATE_LIMIT_LOCKOUT : ℚ := 1800

structure RateLimiterState where
  attempts : String → List ℚ
  lockouts : String → Option ℚ

/-- `is_locked`: returns `(locked, seconds_remaining)`; an expired lockout
entry is deleted on the way. -/
def isLocked (st : RateLimiterState) (key : String) (now : ℚ) :
    (Bool × ℕ) × RateLimiterState :=
  match st.lockouts key with
  | some lockoutEnd =>
    if 0 < lockoutEnd - now then ((true, (⌊lockoutEnd - now⌋).toNat), st)
    else ((false, 0),
      { st with lockouts := fun k => if k = key then none else st.lockouts k })
  | none => ((false, 0), st)

/-- True when the key has a lockout entry lying strictly in the future. -/
def lockoutActive (st : RateLimiterState) (key : String) (now : ℚ) : Bool :=
  match st.lockouts key with
  | some lockoutEnd => decide (now < lockoutEnd)
  | none => false

/-- `record_attempt`: returns `(allowed, attempts_remaining)`.  An active
lockout short-circuits; otherwise attempts outside the window are dropped,
the new attempt is appended, and reaching the threshold installs a lockout
and clears the window. -/
def recordAttempt (st : RateLimiterState) (key : String) (now : ℚ) :
    (Bool × ℕ) × RateLimiterState :=
  if lockoutActive st key now then ((false, 0), st)
  else
    let atts := ((st.attempts key).filter (fun x => now - RATE_LIMIT_WINDOW < x)) ++ [now]
    if RATE_LIMIT_MAX_ATTEMPTS ≤ atts.length then
      ((false, 0),
        { attempts := fun k => if k = key then [] else st.attempts k,
          lockouts := fun k => if k = key then some (now + RATE_LIMIT_LOCKOUT)
            else st.lockouts k })
    else
      ((true, RATE_LIMIT_MAX_ATTEMPTS - atts.length),
        { st with attempts := fun k => if k = key then atts else st.attempts k })

/-- `reset`: drop both the attempt list and any lockout for the key. -/
def resetKey (st : RateLimiterState) (key : String) : RateLimiterState :=
  { attempts := fun k => if k = key then [] else st.attempts k,
    lockouts := fun k => if k = key then none else st.lockouts k }

/-- **C4** (amended): (a) a `record_attempt` that brings the in-window
count to the threshold `K = 5` returns `(false, 0)`, installs a lockout of
`L = 1800` seconds and clears the window; (b) every `record_attempt`
during an active lockout returns `(false, 0)` and leaves the state
unchanged, and `is_locked` then reports locked with `r` equal to the
truncated remaining time, with `r ≤ L` whenever the lockout lies within
`L` of `now` — `r` is a *truncation*, so `r = 0` is possible and the
claim's `0 < r` fails (see the counterexample); (c) after `reset` the very
next `record_attempt` is accepted. -/
theorem rateLimiter_spec (st : RateLimiterState) (key : String) (now : ℚ) :
    (lockoutActive st key now = false →
      RATE_LIMIT_MAX_ATTEMPTS ≤
        ((st.attempts key).filter (fun x => now - RATE_LIMIT_WINDOW < x)).length + 1 →
      (recordAttempt st key now).1 = (false, 0) ∧
        (recordAttempt st key now).2.lockouts key = some (now + RATE_LIMIT_LOCKOUT) ∧
        (recordAttempt st key now).2.attempts key = []) ∧
    (∀ lockoutEnd, st.lockouts key = some lockoutEnd → now < lockoutEnd →
      recordAttempt st key now = ((false, 0), st) ∧
        (isLocked st key now).1.1 = true ∧
        (isLocked st key now).1.2 = (⌊lockoutEnd - now⌋).toNat ∧
        (lockoutEnd ≤ now + RATE_LIMIT_LOCKOUT → (isLocked st key now).1.2 ≤ 1800)) ∧
    ((recordAttempt (resetKey st key) key now).1 = (true, 4)) := by
  refine ⟨?_, ?_, ?_⟩
  · intro hlock hcnt
    have hlen : RATE_LIMIT_MAX_ATTEMPTS ≤
        (((st.attempts key).filter (fun x => now - RATE_LIMIT_WINDOW < x)) ++ [now]).length := by
      rw [List.length_append]
      simpa using hcnt
    simp only [recordAttempt, hlock, Bool.false_eq_true, if_false, if_pos hlen]
    refine ⟨?_, ?_, ?_⟩ <;> simp
  · intro lockoutEnd hsome hlt
    have hactive : lockoutActive st key now = true := by
      simp [lockoutActive, hsome, hlt]
    have hrec : recordAttempt st key now = ((false, 0), st) := by
      simp [recordAttempt, hactive]
    have hpos : 0 < lockoutEnd - now := by linarith
    have hil : isLocked st key now = ((true, (⌊lockoutEnd - now⌋).toNat), st) := by
      simp [isLocked, hsome, hpos]
    refine ⟨hrec, by rw [hil], by rw [hil], ?_⟩
    intro hub
    rw [hil]
    have h1 : lockoutEnd - now ≤ (1800 : ℚ) := by
      unfold RATE_LIMIT_LOCKOUT at hub
      linarith
    have h2 : ⌊lockoutEnd - now⌋ ≤ (1800 : ℤ) := by
      calc ⌊lockoutEnd - now⌋ ≤ ⌊(1800 : ℚ)⌋ := Int.floor_le_floor h1
        _ = 1800 := by norm_num
    show (⌊lockoutEnd - now⌋).toNat ≤ 1800
    omega
  · have hnolock : lockoutActive (resetKey st key) key now = false := by
      simp [lockoutActive, resetKey]
    simp only [recordAttempt, hnolock, Bool.false_eq_true, if_false]
    simp [resetKey, RATE_LIMIT_MAX_ATTEMPTS]

/-- **C4** counterexample: with a lockout expiring half a second after
`now = 3600`, `is_locked` reports locked with `0` seconds remaining —
`int()` truncation makes the claimed `0 < r` false. -/
theorem rateLimiter_counterexample :
    (isLocked ⟨fun _ => [], fun _ => some (7201 / 2 : ℚ)⟩ "k" 3600).1 = (true, 0) ∧
      ¬ (0 < (isLocked ⟨fun _ => [], fun _ => some (7201 / 2 : ℚ)⟩ "k" 3600).1.2) := by
  have hfl : (⌊(7201 / 2 : ℚ) - 3600⌋).toNat = 0 := by
    rw [show (7201 / 2 : ℚ) - 3600 = 1 / 2 by norm_num]
    rw [show ⌊(1 / 2 : ℚ)⌋ = 0 by norm_num]
    rfl
  have h : (isLocked ⟨fun _ => [], fun _ => some (7201 / 2 : ℚ)⟩ "k" 3600).1 = (true, 0) := by
    norm_num [isLocked, hfl]
  exact ⟨h, by rw [h]; norm_num⟩

/-- **C4** witness: the amended theorem applied at two concrete states —
four in-window attempts at `now = 3600` (the fifth attempt locks), and an
active lockout until `4000` — with every hypothesis discharged there. -/
theorem rateLimiter_spec_witness :
    (recordAttempt ⟨fun _ => [(3500 : ℚ), 3520, 3540, 3560], fun _ => none⟩ "k" 3600).1 =
        (false, 0) ∧
      (recordAttempt ⟨fun _ => [(3500 : ℚ), 3520, 3540, 3560],
          fun _ => none⟩ "k" 3600).2.lockouts "k" = some (3600 + RATE_LIMIT_LOCKOUT) ∧
      (recordAttempt ⟨fun _ => [(3500 : ℚ), 3520, 3540, 3560],
          fun _ => none⟩ "k" 3600).2.attempts "k" = [] ∧
      recordAttempt ⟨fun _ => [], fun _ => some (4000 : ℚ)⟩ "k" 3600 =
        ((false, 0), ⟨fun _ => [], fun _ => some (4000 : ℚ)⟩) ∧
      (isLocked ⟨fun _ => [], fun _ => some (4000 : ℚ)⟩ "k" 3600).1.1 = true ∧
      (isLocked ⟨fun _ => [], fun _ => some (4000 : ℚ)⟩ "k" 3600).1.2 ≤ 1800 ∧
      (recordAttempt (resetKey ⟨fun _ => [], fun _ => some (4000 : ℚ)⟩ "k") "k" 3600).1 =
        (true, 4) := by
  obtain ⟨ha, _, _⟩ :=
    rateLimiter_spec ⟨fun _ => [(3500 : ℚ), 3520, 3540, 3560], fun _ => none⟩ "k" 3600
  obtain ⟨_, hb, hd⟩ := rateLimiter_spec ⟨fun _ => [], fun _ => some (4000 : ℚ)⟩ "k" 3600
  obtain ⟨ha1, ha2, ha3⟩ := ha (by simp [lockoutActive]) (by
    norm_num [RATE_LIMIT_WINDOW, RATE_LIMIT_MAX_ATTEMPTS, List.filter])
  obtain ⟨hb1, hb2, hb3, hb4⟩ := hb 4000 rfl (by norm_num)
  exact ⟨ha1, ha2, ha3, hb1, hb2, hb4 (by norm_num [RATE_LIMIT_LOCKOUT]), hd⟩

/-! ## `auth.py` — session store and request authentication

A `sessions` table row.  `created_at`, `ip_address` and `user_agent` play
no role in `get_session` and are omitted; `expires_at` (an ISO datetime in
the code) is modelled as a rational timestamp compared against `now`.
`secrets.compare_digest` on equal-length inputs decides string equality,
so the token match is modelled as string equality (its constant-time
character is not expressible in a functional embedding). -/

structure Session where
  token : String
  userId : String
  expiresAt : ℚ
deriving DecidableEq

/-- `UserStore.get_session`: scan all rows in table order; on the first
token match, return the row unless `now > expires_at`, in which case the
row is deleted (`DELETE FROM sessions WHERE token = ?`) and the caller
gets `None`.  Returns `(result, table after the call)`. -/
def getSession (rows : List Session) (now : ℚ) (t : String) : Option Session × List Session :=
  match rows.find? (fun r => r.token == t) with
  | none => (none, rows)
  | some r =>
    if r.expiresAt < now then (none, rows.filter (fun q => ¬ q.token = t))
    else (some r, rows)

/-- **C2** (amended): with pairwise-distinct stored tokens (the column is
a primary key), `get_session(t)` returns a stored session `s` iff
`s.token = t` and `now ≤ s.expires_at` — the code deletes only when
`now > expires_at`, so at `now = expires_at` the session is still returned
and the claim's strict `now < expires_at` fails (see the counterexample);
when the matching row has expired it is deleted from the table and the
caller receives `None`; a successful lookup leaves the table unchanged. -/
theorem getSession_spec (rows : List Session) (now : ℚ) (t : String)
    (hnd : (rows.map Session.token).Nodup) :
    (∀ s, (getSession rows now t).1 = some s ↔
      s ∈ rows ∧ s.token = t ∧ now ≤ s.expiresAt) ∧
    (∀ s ∈ rows, s.token = t → s.expiresAt < now →
      (getSession rows now t).1 = none ∧
        (getSession rows now t).2 = rows.filter (fun q => ¬ q.token = t) ∧
        ∀ q ∈ (getSession rows now t).2, q.token ≠ t) ∧
    (∀ s, (getSession rows now t).1 = some s → (getSession rows now t).2 = rows) := by
  have hinj := List.inj_on_of_nodup_map hnd
  cases hfind : rows.find? (fun r => r.token == t) with
  | none =>
    have hno : ∀ s ∈ rows, s.token ≠ t := by
      intro s hs
      have := List.find?_eq_none.1 hfind s hs
      simpa using this
    refine ⟨?_, ?_, ?_⟩
    · intro s
      simp only [getSession, hfind]
      constructor
      · intro h
        exact absurd h (by simp)
      · rintro ⟨hs, hok, -⟩
        exact absurd hok (hno s hs)
    · intro s hs hok
      exact absurd hok (hno s hs)
    · intro s h
      simp only [getSession, hfind] at h
      exact absurd h (by simp)
  | some r =>
    have hrmem : r ∈ rows := List.mem_of_find?_eq_some hfind
    have hrtok : r.token = t := by
      have := List.find?_some hfind
      simpa using this
    by_cases hexp : r.expiresAt < now
    · have hgs : getSession rows now t = (none, rows.filter (fun q => ¬ q.token = t)) := by
        simp only [getSession, hfind, if_pos hexp]
      refine ⟨?_, ?_, ?_⟩
      · intro s
        rw [hgs]
        constructor
        · intro h
          exact absurd h (by simp)
        · rintro ⟨hs, hok, hle⟩
          have : s = r := hinj hs hrmem (by rw [hok, hrtok])
          subst this
          linarith
      · intro s hs hok hlt
        rw [hgs]
        refine ⟨rfl, rfl, ?_⟩
        intro q hq
        have := List.of_mem_filter hq
        simpa using this
      · intro s h
        rw [hgs] at h
        exact absurd h (by simp)
    · have hgs : getSession rows now t = (some r, rows) := by
        simp only [getSession, hfind, if_neg hexp]
      push_neg at hexp
      refine ⟨?_, ?_, ?_⟩
      · intro s
        rw [hgs]
        constructor
        · intro h
          have : s = r := by simpa using h.symm
          subst this
          exact ⟨hrmem, hrtok, hexp⟩
        · rintro ⟨hs, hok, hle⟩
          have : s = r := hinj hs hrmem (by rw [hok, hrtok])
          subst this
          rfl
      · intro s hs hok hlt
        have : s = r := hinj hs hrmem (by rw [hok, hrtok])
        subst this
        linarith
      · intro s h
        rw [hgs]

/-- **C2** counterexample: a stored session expiring exactly at `now = 5`
is still returned (`get_session` deletes only when `now > expires_at`),
while the claimed condition `now < expires_at` is false. -/
theorem getSession_counterexample :
    (getSession [⟨"a", "u", (5 : ℚ)⟩] 5 "a").1 = some ⟨"a", "u", (5 : ℚ)⟩ ∧
      ¬ ((5 : ℚ) < (Session.mk "a" "u" (5 : ℚ)).expiresAt) := by
  constructor
  · simp [getSession]
  · norm_num

/-- **C2** witness: the amended theorem applied at a one-row table with an
unexpired session, hypotheses discharged there. -/
theorem getSession_spec_witness :
    (([⟨"a", "u", (10 : ℚ)⟩] : List Session).map Session.token).Nodup ∧
      (getSession [⟨"a", "u", (10 : ℚ)⟩] 5 "a").1 = some ⟨"a", "u", (10 : ℚ)⟩ ∧
      (getSession [⟨"a", "u", (10 : ℚ)⟩] 5 "a").2 = [⟨"a", "u", (10 : ℚ)⟩] := by
  have hnd : (([⟨"a", "u", (10 : ℚ)⟩] : List Session).map Session.token).Nodup := by simp
  obtain ⟨hiff, -, hkeep⟩ := getSession_spec [⟨"a", "u", (10 : ℚ)⟩] 5 "a" hnd
  have hsome := (hiff ⟨"a", "u", (10 : ℚ)⟩).2 ⟨by simp, rfl, by norm_num⟩
  exact ⟨hnd, hsome, hkeep _ hsome⟩

/-! ## `auth.py` — `get_current_user` (C10)

The `users` table rows are reduced to the fields the function reads. -/

structure AuthUser where
  id : String
  isActive : Bool

/-- The header prefix / length gate of `get_current_user`: `None` when the
`Authorization` header is missing (Flask returns the default `''`), does
not start with `'Bearer '`, or carries an empty or over-long (> 100
characters) token. -/
def tokenOfHeader (h : Option String) : Option String :=
  let auth := h.getD ""
  if auth.startsWith "Bearer " then
    let tok := auth.drop 7
    if tok = "" ∨ 100 < tok.length then none else some tok
  else none

/-- `get_current_user`: gate the header, then look the token up in the
session store, then fetch the user and require `is_active`.  The second
component records whether the session store was consulted. -/
def getCurrentUser (users : List AuthUser) (rows : List Session) (now : ℚ)
    (h : Option String) : Option AuthUser × Bool :=
  match tokenOfHeader h with
  | none => (none, false)
  | some tok =>
    match (getSession rows now tok).1 with
    | none => (none, true)
    | some s =>
      match users.find? (fun u => u.id == s.userId) with
      | none => (none, true)
      | some u => (if u.isActive then some u else none, true)

/-- **C10** (confirmed): whenever the `Authorization` header is missing,
does not start with `'Bearer '`, or carries an empty token or one longer
than 100 characters, `get_current_user` returns `None` without consulting
the session store — so no stored session can be matched by a presented
token longer than 100 characters. -/
theorem getCurrentUser_gate (users : List AuthUser) (rows : List Session) (now : ℚ)
    (h : Option String)
    (hbad : h = none ∨ ¬ (h.getD "").startsWith "Bearer " ∨ (h.getD "").drop 7 = "" ∨
      100 < ((h.getD "").drop 7).length) :
    getCurrentUser users rows now h = (none, false) := by
  have htok : tokenOfHeader h = none := by
    unfold tokenOfHeader
    rcases hbad with rfl | hb | hb | hb
    · rw [if_neg (by decide)]
    · rw [if_neg (by simpa using hb)]
    · by_cases hs : (h.getD "").startsWith "Bearer "
      · rw [if_pos hs, if_pos (Or.inl hb)]
      · rw [if_neg hs]
    · by_cases hs : (h.getD "").startsWith "Bearer "
      · rw [if_pos hs, if_pos (Or.inr hb)]
      · rw [if_neg hs]
  unfold getCurrentUser
  rw [htok]

/-- **C10** witness: the theorem applied at a missing header with a
nonempty session store. -/
theorem getCurrentUser_gate_witness :
    getCurrentUser [⟨"u", true⟩] [⟨"a", "u", (10 : ℚ)⟩] 5 none = (none, false) :=
  getCurrentUser_gate [⟨"u", true⟩] [⟨"a", "u", (10 : ℚ)⟩] 5 none (Or.inl rfl)

/-! ## `user_storage.py` — per-user quota (C3)

`StorageManager.save_file` takes the per-owner lock, re-checks
`can_upload`, writes the file and inserts the row; the lock serialises the
check-and-commit for a user, so a user's storage history is modelled as a
sequence of `saveFile` steps.  Filename/extension validation and the UUID
check do not affect the quota accounting and are outside the model; the
category is typed, so `validate_category` always succeeds. -/

inductive FileCategory
  | mf4
  | dbc
  | layouts
  | mappings
  | analyses
deriving DecidableEq

/-- `CATEGORIES[c]["max_size_mb"]`. -/
def maxSizeMB : FileCategory → ℕ
  | .mf4 => 2000
  | .dbc => 50
  | .layouts => 5
  | .mappings => 5
  | .analyses => 10

def MAX_FILES_PER_USER : ℕ := 1000

def MAX_FILES_PER_CATEGORY : ℕ := 200

/-- The `stored_files` rows of one user: `(category, size_bytes)`. -/
structure UserStorage where
  files : List (FileCategory × ℕ)

/-- `get_used_space`: `SUM(size_bytes)` over the user's rows. -/
def usedSpace (st : UserStorage) : ℕ := (st.files.map Prod.snd).sum

def countFiles (st : UserStorage) : ℕ := st.files.length

def countCat (st : UserStorage) (c : FileCategory) : ℕ :=
  (st.files.filter (fun p => p.1 = c)).length

/-- `StorageManager.can_upload` (category and UUID checks always pass in
the typed model): per-category size cap, then quota, then the two file
count caps. -/
def canUpload (quota : ℕ) (st : UserStorage) (fileSize : ℕ) (c : FileCategory) :
    Bool × String :=
  if maxSizeMB c * 1024 * 1024 < fileSize then (false, "Fichier trop volumineux")
  else if quota < usedSpace st + fileSize then (false, "Quota depasse")
  else if MAX_FILES_PER_USER ≤ countFiles st then (false, "Limite de fichiers atteinte")
  else if MAX_FILES_PER_CATEGORY ≤ countCat st c then
    (false, "Limite de fichiers pour cette categorie atteinte")
  else (true, "")

/-- `StorageManager.save_file` under the user's lock: a failed
`can_upload` raises (no row inserted, no file written); otherwise the row
is appended. -/
def saveFile (quota : ℕ) (st : UserStorage) (fileSize : ℕ) (c : FileCategory) :
    Except String UserStorage :=
  if (canUpload quota st fileSize c).1 then Except.ok ⟨st.files ++ [(c, fileSize)]⟩
  else Except.error (canUpload quota st fileSize c).2

/-- A serialised sequence of `save_file` calls for one user (the per-owner
mutex forbids interleaving); a raising call leaves the state unchanged. -/
def runSaves (quota : ℕ) (st : UserStorage) : List (FileCategory × ℕ) → UserStorage
  | [] => st
  | (c, sz) :: rest =>
    match saveFile quota st sz c with
    | Except.ok st' => runSaves quota st' rest
    | Except.error _ => runSaves quota st rest

theorem canUpload_fst_true (quota : ℕ) (st : UserStorage) (sz : ℕ) (c : FileCategory) :
    (canUpload quota st sz c).1 = true ↔
      sz ≤ maxSizeMB c * 1024 * 1024 ∧ usedSpace st + sz ≤ quota ∧
        countFiles st < MAX_FILES_PER_USER ∧ countCat st c < MAX_FILES_PER_CATEGORY := by
  unfold canUpload
  split_ifs with h1 h2 h3 h4 <;> simp <;> omega

/-- **C3** (confirmed): every accepted `save_file` passed the
`used + size ≤ quota` check under the per-owner lock and appends exactly
its row; a failed check raises the `can_upload` error and changes nothing;
consequently, along any serialised sequence of uploads starting within
quota, the sum of stored sizes never exceeds the quota. -/
theorem saveFile_quota_spec (quota : ℕ) :
    (∀ st sz c st', saveFile quota st sz c = Except.ok st' →
      usedSpace st + sz ≤ quota ∧ st'.files = st.files ++ [(c, sz)] ∧
        usedSpace st' = usedSpace st + sz) ∧
    (∀ st sz c, (canUpload quota st sz c).1 = false →
      saveFile quota st sz c = Except.error (canUpload quota st sz c).2) ∧
    (∀ st reqs, usedSpace st ≤ quota → usedSpace (runSaves quota st reqs) ≤ quota) := by
  have hok : ∀ st sz c st', saveFile quota st sz c = Except.ok st' →
      usedSpace st + sz ≤ quota ∧ st'.files = st.files ++ [(c, sz)] ∧
        usedSpace st' = usedSpace st + sz := by
    intro st sz c st' h
    unfold saveFile at h
    by_cases hc : (canUpload quota st sz c).1 = true
    · rw [if_pos hc] at h
      have hq := ((canUpload_fst_true quota st sz c).1 hc).2.1
      have hfiles : st'.files = st.files ++ [(c, sz)] := by
        cases h
        rfl
      refine ⟨hq, hfiles, ?_⟩
      unfold usedSpace
      rw [hfiles, List.map_append, List.sum_append]
      simp
    · rw [if_neg hc] at h
      exact absurd h (by simp)
  refine ⟨hok, ?_, ?_⟩
  · intro st sz c hc
    unfold saveFile
    rw [if_neg (by simp [hc])]
  · intro st reqs
    induction reqs generalizing st with
    | nil => intro h; exact h
    | cons p rest ih =>
      intro h
      obtain ⟨c, sz⟩ := p
      show usedSpace (match saveFile quota st sz c with
        | Except.ok st' => runSaves quota st' rest
        | Except.error _ => runSaves quota st rest) ≤ quota
      cases hsf : saveFile quota st sz c with
      | ok st' =>
        have := hok st sz c st' hsf
        exact ih st' (by omega)
      | error e => exact ih st h

/-- **C3** witness: the theorem applied at `quota = 100` with a concrete
accepted upload, a concrete rejected upload, and a two-step sequence, all
hypotheses discharged there. -/
theorem saveFile_quota_spec_witness :
    (usedSpace ⟨[]⟩ + 60 ≤ 100 ∧
      (⟨[(FileCategory.layouts, 60)]⟩ : UserStorage).files =
        (⟨[]⟩ : UserStorage).files ++ [(FileCategory.layouts, 60)] ∧
      usedSpace ⟨[(FileCategory.layouts, 60)]⟩ = usedSpace ⟨[]⟩ + 60) ∧
      usedSpace (runSaves 100 ⟨[]⟩
        [(FileCategory.layouts, 60), (FileCategory.layouts, 60)]) ≤ 100 := by
  obtain ⟨hok, -, hrun⟩ := saveFile_quota_spec 100
  exact ⟨hok ⟨[]⟩ 60 FileCategory.layouts ⟨[(FileCategory.layouts, 60)]⟩ (by rfl),
    hrun ⟨[]⟩ [(FileCategory.layouts, 60), (FileCategory.layouts, 60)] (by decide)⟩

/-! ## `lazy_eda.py` — session cleanup and cap (C9)

Only the fields the cleanup path reads are modelled: the insertion-ordered
dict of `session_id → last_access`.  `sorted(..., key=last_access)` is
Python's stable sort, modelled by a stable insertion sort.  Closing a
session pops it from the dict (releasing the decoder handle is I/O and out
of scope). -/

structure LazyManager where
  sessions : List (String × ℚ)
  maxSessions : ℕ
  timeout : ℚ

/-- Stable insertion into a list sorted by `last_access`: an element moves
left only past strictly larger keys, as in Python's stable `sorted`. -/
def insertByAccess (p : String × ℚ) : List (String × ℚ) → List (String × ℚ)
  | [] => [p]
  | q :: rest => if q.2 < p.2 then q :: insertByAccess p rest else p :: q :: rest

def sortByAccess : List (String × ℚ) → List (String × ℚ)
  | [] => []
  | p :: rest => insertByAccess p (sortByAccess rest)

/-- The sessions surviving the idle-timeout pass
(`now - last_access > timeout` is closed). -/
def keptSessions (m : LazyManager) (now : ℚ) : List (String × ℚ) :=
  m.sessions.filter (fun p => ¬ (m.timeout < now - p.2))

/-- The ids of the `len - max_sessions` oldest (by `last_access`)
surviving sessions, the slice `sorted_sessions[:len - max]`. -/
def evictIds (m : LazyManager) (now : ℚ) : List String :=
  ((sortByAccess (keptSessions m now)).take
    ((keptSessions m now).length - m.maxSessions)).map Prod.fst

/-- `_cleanup_old_sessions`: close sessions idle longer than the timeout,
then, if the count still exceeds the cap, close the oldest
`len(sessions) - max_sessions` sessions. -/
def cleanupOldSessions (m : LazyManager) (now : ℚ) : LazyManager :=
  if m.maxSessions < (keptSessions m now).length then
    { m with sessions := (keptSessions m now).filter (fun p => ¬ p.1 ∈ evictIds m now) }
  else { m with sessions := keptSessions m now }

/-- `create_session`: run the cleanup, then insert the new record with
`last_access = now` (a dict assignment: update in place or append). -/
def createSession (m : LazyManager) (now : ℚ) (sid : String) : LazyManager :=
  let m1 := cleanupOldSessions m now
  if m1.sessions.any (fun p => p.1 = sid) then
    { m1 with sessions := m1.sessions.map (fun p => if p.1 = sid then (sid, now) else p) }
  else { m1 with sessions := m1.sessions ++ [(sid, now)] }

theorem insertByAccess_perm (p : String × ℚ) (l : List (String × ℚ)) :
    List.Perm (insertByAccess p l) (p :: l) := by
  induction l with
  | nil => rfl
  | cons q rest ih =>
    unfold insertByAccess
    by_cases h : q.2 < p.2
    · rw [if_pos h]
      exact List.Perm.trans (List.Perm.cons q ih) (List.Perm.swap p q rest)
    · rw [if_neg h]

theorem sortByAccess_perm (l : List (String × ℚ)) : List.Perm (sortByAccess l) l := by
  induction l with
  | nil => rfl
  | cons p rest ih =>
    unfold sortByAccess
    exact List.Perm.trans (insertByAccess_perm p (sortByAccess rest)) (List.Perm.cons p ih)

theorem filter_key_ne_length (l : List (String × ℚ)) (i : String)
    (hnd : (l.map Prod.fst).Nodup) (hmem : i ∈ l.map Prod.fst) :
    (l.filter (fun p => ¬ p.1 = i)).length + 1 = l.length := by
  induction l with
  | nil => simp at hmem
  | cons q rest ih =>
    rw [List.map_cons, List.nodup_cons] at hnd
    by_cases hq : q.1 = i
    · have hrest : ∀ p ∈ rest, p.1 ≠ i := by
        intro p hp hpe
        apply hnd.1
        rw [hq, ← hpe]
        exact List.mem_map_of_mem Prod.fst hp
      have hfr : rest.filter (fun p => ¬ p.1 = i) = rest := by
        apply List.filter_eq_self.2
        intro p hp
        simpa using hrest p hp
      rw [List.filter_cons, if_neg (by simp [hq]), hfr, List.length_cons]
    · have hmem' : i ∈ rest.map Prod.fst := by
        rcases List.mem_cons.1 hmem with h | h
        · exact absurd h.symm (by simpa using hq)
        · exact h
      have := ih hnd.2 hmem'
      rw [List.filter_cons, if_pos (by simpa using hq)]
      simp only [List.length_cons]
      omega

theorem filter_keys_not_mem_length (ids : List String) (l : List (String × ℚ))
    (hnd : (l.map Prod.fst).Nodup) (hids : ids.Nodup)
    (hsub : ∀ i ∈ ids, i ∈ l.map Prod.fst) :
    (l.filter (fun p => ¬ p.1 ∈ ids)).length + ids.length = l.length := by
  induction ids generalizing l with
  | nil => simp
  | cons i ids ih =>
    rw [List.nodup_cons] at hids
    have hsplit : l.filter (fun p => ¬ p.1 ∈ i :: ids) =
        (l.filter (fun p => ¬ p.1 = i)).filter (fun p => ¬ p.1 ∈ ids) := by
      rw [List.filter_filter]
      apply List.filter_congr
      intro p _
      by_cases h1 : p.1 = i <;> by_cases h2 : p.1 ∈ ids <;> simp [h1, h2]
    have hnd' : ((l.filter (fun p => ¬ p.1 = i)).map Prod.fst).Nodup :=
      (List.Sublist.map Prod.fst (List.filter_sublist l)).nodup hnd
    have hsub' : ∀ j ∈ ids, j ∈ (l.filter (fun p => ¬ p.1 = i)).map Prod.fst := by
      intro j hj
      obtain ⟨p, hp, hpj⟩ := List.mem_map.1 (hsub j (by simp [hj]))
      refine List.mem_map.2 ⟨p, List.mem_filter.2 ⟨hp, ?_⟩, hpj⟩
      have hne : p.1 ≠ i := by
        rw [hpj]
        intro hEq
        exact hids.1 (hEq ▸ hj)
      simpa using hne
    have hone := filter_key_ne_length l i hnd (hsub i (by simp))
    have hrec := ih (l.filter (fun p => ¬ p.1 = i)) hnd' hids.2 hsub'
    rw [hsplit]
    simp only [List.length_cons]
    omega

theorem keptSessions_le (m : LazyManager) (now : ℚ) :
    ∀ p ∈ keptSessions m now, now - p.2 ≤ m.timeout := by
  intro p hp
  have h' : ¬ (m.timeout < now - p.2) := by simpa using List.of_mem_filter hp
  exact le_of_not_lt h'

theorem evictIds_spec (m : LazyManager) (now : ℚ)
    (hnd : (m.sessions.map Prod.fst).Nodup) :
    (evictIds m now).Nodup ∧ (∀ i ∈ evictIds m now, i ∈ (keptSessions m now).map Prod.fst) ∧
      (m.maxSessions < (keptSessions m now).length →
        (evictIds m now).length = (keptSessions m now).length - m.maxSessions) := by
  have hknd : ((keptSessions m now).map Prod.fst).Nodup :=
    (List.Sublist.map Prod.fst (List.filter_sublist m.sessions)).nodup hnd
  have hperm : List.Perm ((sortByAccess (keptSessions m now)).map Prod.fst)
      ((keptSessions m now).map Prod.fst) :=
    (sortByAccess_perm (keptSessions m now)).map Prod.fst
  have hsnd : ((sortByAccess (keptSessions m now)).map Prod.fst).Nodup :=
    hperm.nodup_iff.2 hknd
  have hmapeq : evictIds m now = ((sortByAccess (keptSessions m now)).map Prod.fst).take
      ((keptSessions m now).length - m.maxSessions) := by
    unfold evictIds
    rw [List.map_take]
  refine ⟨?_, ?_, ?_⟩
  · rw [hmapeq]
    exact (List.take_sublist _ _).nodup hsnd
  · intro i hi
    rw [hmapeq] at hi
    exact hperm.mem_iff.1 (List.mem_of_mem_take hi)
  · intro hc
    rw [hmapeq, List.length_take, List.length_map,
      (sortByAccess_perm (keptSessions m now)).length_eq]
    omega

/-- **C9** (amended): on every `create_session`, sessions idle longer than
the timeout are removed; if the count still exceeds the cap, the oldest
sessions by `last_access` are evicted until the count *equals* the cap
(not strictly below it, as claimed); hence after `create_session` the live
count is at most `cap + 1` — the claimed bound `cap` fails, see the
counterexample. -/
theorem lazySessions_cap_spec (m : LazyManager) (now : ℚ) (sid : String)
    (hnd : (m.sessions.map Prod.fst).Nodup) :
    (∀ p ∈ (cleanupOldSessions m now).sessions, now - p.2 ≤ m.timeout) ∧
      (cleanupOldSessions m now).sessions.length ≤ m.maxSessions ∧
      (createSession m now sid).sessions.length ≤ m.maxSessions + 1 := by
  obtain ⟨hend, hesub, helen⟩ := evictIds_spec m now hnd
  have hknd : ((keptSessions m now).map Prod.fst).Nodup :=
    (List.Sublist.map Prod.fst (List.filter_sublist m.sessions)).nodup hnd
  have hcl : ∀ p ∈ (cleanupOldSessions m now).sessions, now - p.2 ≤ m.timeout := by
    intro p hp
    unfold cleanupOldSessions at hp
    by_cases hc : m.maxSessions < (keptSessions m now).length
    · rw [if_pos hc] at hp
      exact keptSessions_le m now p (List.mem_of_mem_filter hp)
    · rw [if_neg hc] at hp
      exact keptSessions_le m now p hp
  have hlen : (cleanupOldSessions m now).sessions.length ≤ m.maxSessions := by
    unfold cleanupOldSessions
    by_cases hc : m.maxSessions < (keptSessions m now).length
    · rw [if_pos hc]
      have := filter_keys_not_mem_length (evictIds m now) (keptSessions m now) hknd hend hesub
      have hel := helen hc
      simp only []
      omega
    · rw [if_neg hc]
      simp only []
      omega
  refine ⟨hcl, hlen, ?_⟩
  unfold createSession
  by_cases hc : (cleanupOldSessions m now).sessions.any (fun p => p.1 = sid)
  · simp [hc]
    omega
  · simp [hc]
    omega

/-- **C9** counterexample: with cap `1` and two fresh sessions, the
cleanup evicts down to exactly the cap (one session), and `create_session`
then brings the live count to `2 > 1` — the claimed "never exceeds the
cap" fails. -/
theorem lazySessions_cap_counterexample :
    (createSession ⟨[("a", 0), ("b", 0)], 1, 100⟩ 0 "c").sessions =
        [("b", 0), ("c", 0)] ∧
      ¬ ((createSession ⟨[("a", 0), ("b", 0)], 1, 100⟩ 0 "c").sessions.length ≤
        (⟨[("a", 0), ("b", 0)], 1, 100⟩ : LazyManager).maxSessions) := by
  have h : (createSession ⟨[("a", 0), ("b", 0)], 1, 100⟩ 0 "c").sessions =
      [("b", 0), ("c", 0)] := by
    norm_num [createSession, cleanupOldSessions, keptSessions, evictIds, sortByAccess,
      insertByAccess, List.filter, List.any]
    simp
  refine ⟨h, ?_⟩
  rw [h]
  norm_num

/-- **C9** witness: the amended theorem applied at a concrete manager
(one fresh session, cap 50), hypothesis discharged there. -/
theorem lazySessions_cap_spec_witness :
    ((([("a", (0 : ℚ))] : List (String × ℚ)).map Prod.fst).Nodup) ∧
      ((∀ p ∈ (cleanupOldSessions ⟨[("a", 0)], 50, 3600⟩ 10).sessions,
          (10 : ℚ) - p.2 ≤ (⟨[("a", 0)], 50, 3600⟩ : LazyManager).timeout) ∧
        (cleanupOldSessions ⟨[("a", 0)], 50, 3600⟩ 10).sessions.length ≤ 50 ∧
        (createSession ⟨[("a", 0)], 50, 3600⟩ 10 "b").sessions.length ≤ 50 + 1) :=
  ⟨by simp, lazySessions_cap_spec ⟨[("a", 0)], 50, 3600⟩ 10 "b" (by simp)⟩

/-! ## `lazy_eda.py` — `preload_signal` (C7)

The decoded file content of a signal is modelled as a list of
`(timestamp, sample)` pairs where `none` stands for a non-finite sample
(`NaN`/`±inf`); finite samples are exact rationals (the cast to float64 is
modelled as exact).  `np.interp(t, xp, fp, left, right)` on increasing
`xp` is embedded as `npInterp`. -/

/-- `np.interp` at a single query point `t` over knots `pairs` (assumed in
increasing x order, as `np.interp` requires), with out-of-range fills `l`
(left) and `r` (right).  `np.interp` rejects empty knots; the `[]` case is
unreachable in `preload_signal` (guarded by the all-NaN check). -/
def npInterp (t l r : ℚ) : List (ℚ × ℚ) → ℚ
  | [] => l
  | [(x0, f0)] => if t < x0 then l else if x0 < t then r else f0
  | (x0, f0) :: (x1, f1) :: rest =>
    if t < x0 then l
    else if t ≤ x1 then f0 + (f1 - f0) * (t - x0) / (x1 - x0)
    else npInterp t l r ((x1, f1) :: rest)

/-- The finite `(timestamp, value)` pairs of a raw signal —
`timestamps[valid_mask], values[valid_mask]`. -/
def finitePairs (raw : List (ℚ × Option ℚ)) : List (ℚ × ℚ) :=
  raw.filterMap (fun p => p.2.map (fun v => (p.1, v)))

/-- The values array after `values[mask] = np.interp(timestamps[mask],
timestamps[valid_mask], values[valid_mask], left=…[0], right=…[-1])`:
finite positions keep their value, non-finite positions get the
interpolant at their timestamp. -/
def interpValues (raw : List (ℚ × Option ℚ)) : List ℚ :=
  raw.map (fun p =>
    match p.2 with
    | some v => v
    | none => npInterp p.1 ((finitePairs raw).headD (0, 0)).2
        ((finitePairs raw).getLastD (0, 0)).2 (finitePairs raw))

/-- The last finite sample strictly before position `i`. -/
def prevFinite (raw : List (ℚ × Option ℚ)) (i : ℕ) : Option (ℚ × ℚ) :=
  (finitePairs (raw.take i)).getLast?

/-- The first finite sample strictly after position `i`. -/
def nextFinite (raw : List (ℚ × Option ℚ)) (i : ℕ) : Option (ℚ × ℚ) :=
  (finitePairs (raw.drop (i + 1))).head?

/-- Modelled from the spec's words (for comparison with the code's
`np.interp` call): "replaces non-finite samples by linear interpolation
over the surrounding finite neighborhood", extending with the first/last
finite value at the edges. -/
def specInterp (raw : List (ℚ × Option ℚ)) (i : ℕ) : ℚ :=
  match prevFinite raw i, nextFinite raw i with
  | some (tp, vp), some (tn, vn) =>
    vp + (vn - vp) * ((raw.getD i (0, none)).1 - tp) / (tn - tp)
  | none, some (_, vn) => vn
  | some (_, vp), none => vp
  | none, none => 0

/-- One signal of a listed lazy session: the decoded raw file samples and
the loaded (normalised) arrays, `none` until `preload_signal` stores
them. -/
structure SigState where
  raw : List (ℚ × Option ℚ)
  data : Option (List ℚ × List ℚ)

structure LazySessionSig where
  listed : Bool
  signals : List (ℕ × SigState)

inductive PreloadStatus
  | ready
  | error (msg : String)
deriving DecidableEq

structure PreloadResp where
  index : ℕ
  status : PreloadStatus
deriving DecidableEq

/-- Store loaded arrays into one signal of one session. -/
def setSignalData (mgr : List (String × LazySessionSig)) (sid : String) (idx : ℕ)
    (d : List ℚ × List ℚ) : List (String × LazySessionSig) :=
  mgr.map (fun p =>
    if p.1 = sid then
      (p.1, { p.2 with signals := p.2.signals.map (fun q =>
        if q.1 = idx then (q.1, { q.2 with data := some d }) else q) })
    else p)

/-- `LazyEDAManager.preload_signal`: missing/unlisted session or unknown
index → `None`; already-loaded signal → immediate `ready` with no state
change; empty or all-non-finite raw data → an error response with the
signal left unloaded; otherwise the normalised, interpolated arrays are
stored and `ready` is returned. -/
def preloadSignal (mgr : List (String × LazySessionSig)) (sid : String) (idx : ℕ) :
    Option PreloadResp × List (String × LazySessionSig) :=
  match mgr.find? (fun p => p.1 == sid) with
  | none => (none, mgr)
  | some (_, sess) =>
    if sess.listed = false then (none, mgr)
    else
      match sess.signals.find? (fun q => q.1 == idx) with
      | none => (none, mgr)
      | some (_, sig) =>
        match sig.data with
        | some _ => (some ⟨idx, PreloadStatus.ready⟩, mgr)
        | none =>
          if sig.raw = [] then (some ⟨idx, PreloadStatus.error "Signal empty"⟩, mgr)
          else if finitePairs sig.raw = [] then
            (some ⟨idx, PreloadStatus.error "All NaN values"⟩, mgr)
          else
            (some ⟨idx, PreloadStatus.ready⟩,
              setSignalData mgr sid idx (sig.raw.map Prod.fst, interpValues sig.raw))

theorem npInterp_right (t l r : ℚ) :
    ∀ (A : List (ℚ × ℚ)), A ≠ [] → (∀ p ∈ A, p.1 < t) → npInterp t l r A = r := by
  intro A
  induction A with
  | nil => intro h _; exact absurd rfl h
  | cons a A ih =>
    intro _ hlt
    obtain ⟨ta, va⟩ := a
    cases A with
    | nil =>
      have ha : ta < t := hlt (ta, va) (by simp)
      unfold npInterp
      rw [if_neg (by linarith), if_pos ha]
    | cons b B =>
      obtain ⟨tb, vb⟩ := b
      have ha : ta < t := hlt (ta, va) (by simp)
      have hb : tb < t := hlt (tb, vb) (by simp)
      unfold npInterp
      rw [if_neg (by linarith), if_neg (by linarith)]
      exact ih (by simp) (fun p hp => hlt p (by simp [hp]))

theorem npInterp_left_lt (t l r : ℚ) (B : List (ℚ × ℚ)) (b : ℚ × ℚ) (hb : t < b.1) :
    npInterp t l r (b :: B) = l := by
  obtain ⟨tb, vb⟩ := b
  cases B with
  | nil =>
    unfold npInterp
    rw [if_pos hb]
  | cons c C =>
    obtain ⟨tc, vc⟩ := c
    unfold npInterp
    rw [if_pos hb]

theorem npInterp_mid (t l r : ℚ) :
    ∀ (A : List (ℚ × ℚ)) (tn vn : ℚ) (B : List (ℚ × ℚ)), A ≠ [] →
      (∀ p ∈ A, p.1 < t) → t ≤ tn →
      npInterp t l r (A ++ (tn, vn) :: B) =
        (A.getLastD (0, 0)).2 + (vn - (A.getLastD (0, 0)).2) * (t - (A.getLastD (0, 0)).1) /
          (tn - (A.getLastD (0, 0)).1) := by
  intro A
  induction A with
  | nil => intro tn vn B h _ _; exact absurd rfl h
  | cons a A ih =>
    intro tn vn B _ hlt htn
    obtain ⟨ta, va⟩ := a
    cases A with
    | nil =>
      have ha : ta < t := hlt (ta, va) (by simp)
      simp only [List.cons_append, List.nil_append]
      unfold npInterp
      rw [if_neg (by linarith), if_pos htn]
      rfl
    | cons b B' =>
      obtain ⟨tb, vb⟩ := b
      have ha : ta < t := hlt (ta, va) (by simp)
      have hb : tb < t := hlt (tb, vb) (by simp)
      have hrec := ih tn vn B (by simp) (fun p hp => hlt p (by simp [hp])) htn
      have hgl : ((ta, va) :: (tb, vb) :: B').getLastD ((0 : ℚ), (0 : ℚ)) =
          ((tb, vb) :: B').getLastD (0, 0) := rfl
      rw [hgl]
      simp only [List.cons_append] at hrec ⊢
      unfold npInterp
      rw [if_neg (by linarith), if_neg (by linarith)]
      exact hrec

theorem mem_finitePairs_times (raw : List (ℚ × Option ℚ)) (q : ℚ × ℚ)
    (hq : q ∈ finitePairs raw) : q.1 ∈ raw.map Prod.fst := by
  obtain ⟨a, ha, hga⟩ := List.mem_filterMap.1 hq
  cases h2 : a.2 with
  | none => rw [h2] at hga; simp at hga
  | some v =>
    rw [h2] at hga
    have hq1 : (a.1, v) = q := by simpa using hga
    rw [← hq1]
    exact List.mem_map_of_mem Prod.fst ha

/-- The stored value at a non-finite position equals the spec's
"interpolate over the surrounding finite samples" description, provided
the timestamps are strictly increasing (as `np.interp` requires). -/
theorem interpValues_getD (raw : List (ℚ × Option ℚ))
    (hsort : (raw.map Prod.fst).Pairwise (· < ·))
    (hne : finitePairs raw ≠ []) (i : ℕ) (hi : i < raw.length)
    (hnf : (raw.getD i ((0 : ℚ), (none : Option ℚ))).2 = none) :
    (interpValues raw).getD i 0 = specInterp raw i := by
  have hget : raw.getD i ((0 : ℚ), (none : Option ℚ)) = raw[i] := by
    simp [List.getD, List.getElem?_eq_getElem hi]
  have hp2 : raw[i].2 = none := by rw [← hget]; exact hnf
  have hdecomp : raw = raw.take i ++ raw[i] :: raw.drop (i + 1) := by
    conv_lhs => rw [← List.take_append_drop i raw]
    rw [List.drop_eq_getElem_cons hi]
  have hAB : finitePairs raw = finitePairs (raw.take i) ++ finitePairs (raw.drop (i + 1)) := by
    conv_lhs => rw [hdecomp]
    unfold finitePairs
    rw [List.filterMap_append, List.filterMap_cons]
    rw [hp2]
    rfl
  have hsort' : ((raw.take i).map Prod.fst).Pairwise (· < ·) ∧
      (∀ x ∈ (raw.take i).map Prod.fst, x < raw[i].1) ∧
      (∀ y ∈ (raw.drop (i + 1)).map Prod.fst, raw[i].1 < y) := by
    have h := hsort
    rw [hdecomp, List.map_append, List.map_cons, List.pairwise_append] at h
    obtain ⟨h1, hpw2, hall⟩ := h
    refine ⟨h1, ?_, ?_⟩
    · intro x hx
      exact hall x hx raw[i].1 (by simp)
    · intro y hy
      exact (List.pairwise_cons.1 hpw2).1 y hy
  have hA_lt : ∀ q ∈ finitePairs (raw.take i), q.1 < raw[i].1 := fun q hq =>
    hsort'.2.1 q.1 (mem_finitePairs_times _ q hq)
  have hB_gt : ∀ q ∈ finitePairs (raw.drop (i + 1)), raw[i].1 < q.1 := fun q hq =>
    hsort'.2.2 q.1 (mem_finitePairs_times _ q hq)
  have hlhs : (interpValues raw).getD i 0 =
      npInterp raw[i].1 ((finitePairs raw).headD (0, 0)).2
        ((finitePairs raw).getLastD (0, 0)).2 (finitePairs raw) := by
    unfold interpValues
    simp only [List.getD, List.get?_eq_getElem?, List.getElem?_map,
      List.getElem?_eq_getElem hi]
    show (match raw[i].2 with
      | some v => v
      | none => npInterp raw[i].1 ((finitePairs raw).headD (0, 0)).2
          ((finitePairs raw).getLastD (0, 0)).2 (finitePairs raw)) = _
    rw [hp2]
  rw [hlhs]
  unfold specInterp prevFinite nextFinite
  rw [hget]
  cases hB : finitePairs (raw.drop (i + 1)) with
  | nil =>
    have hAeq : finitePairs raw = finitePairs (raw.take i) := by rw [hAB, hB, List.append_nil]
    have hAne : finitePairs (raw.take i) ≠ [] := by rw [← hAeq]; exact hne
    cases hAl : (finitePairs (raw.take i)).getLast? with
    | none => exact absurd (List.getLast?_eq_none_iff.1 hAl) hAne
    | some q =>
      obtain ⟨tp, vp⟩ := q
      have hgld : (finitePairs (raw.take i)).getLastD ((0 : ℚ), (0 : ℚ)) = (tp, vp) := by
        rw [List.getLastD_eq_getLast?, hAl]
        rfl
      rw [hAeq, hgld]
      rw [npInterp_right raw[i].1 ((finitePairs (raw.take i)).headD (0, 0)).2 ((tp, vp) : ℚ × ℚ).2
        (finitePairs (raw.take i)) hAne hA_lt]
      rfl
  | cons b B' =>
    obtain ⟨tn, vn⟩ := b
    cases hA : finitePairs (raw.take i) with
    | nil =>
      have hBeq : finitePairs raw = (tn, vn) :: B' := by rw [hAB, hA, hB, List.nil_append]
      rw [hBeq]
      rw [npInterp_left_lt _ _ _ B' (tn, vn) (hB_gt (tn, vn) (by rw [hB]; simp))]
      rfl
    | cons a A' =>
      have hAne : finitePairs (raw.take i) ≠ [] := by rw [hA]; simp
      have hle : raw[i].1 ≤ tn := le_of_lt (hB_gt (tn, vn) (by rw [hB]; simp))
      rw [hAB, hB]
      rw [npInterp_mid raw[i].1 _ _ (finitePairs (raw.take i)) tn vn B' hAne hA_lt hle]
      rw [hA, List.getLastD_eq_getLast?]
      cases hAl : (a :: A').getLast? with
      | none => simp at hAl
      | some q =>
        obtain ⟨tp, vp⟩ := q
        rfl

/-- **C7** (confirmed): for a listed session and a present signal index:
an already-loaded signal returns `ready` immediately with the manager
unchanged; empty raw data gives the "Signal empty" error and all-non-finite
data the "All NaN values" error, each leaving the signal unloaded and the
manager unchanged; otherwise the signal is stored with its timestamps and
with every finite sample kept and every non-finite sample replaced by
linear interpolation over the surrounding finite samples (first/last
finite value at the edges), provided the timestamps are strictly
increasing.  Normalisation to float64 is modelled as exact. -/
theorem preloadSignal_spec (mgr : List (String × LazySessionSig)) (sid : String) (idx : ℕ)
    (s0 : String) (sess : LazySessionSig) (sig : SigState)
    (hfind : mgr.find? (fun p => p.1 == sid) = some (s0, sess))
    (hlisted : sess.listed = true)
    (hsig : sess.signals.find? (fun q => q.1 == idx) = some (idx, sig)) :
    (∀ d, sig.data = some d →
      preloadSignal mgr sid idx = (some ⟨idx, PreloadStatus.ready⟩, mgr)) ∧
      (sig.data = none → sig.raw = [] →
        preloadSignal mgr sid idx = (some ⟨idx, PreloadStatus.error "Signal empty"⟩, mgr)) ∧
      (sig.data = none → sig.raw ≠ [] → finitePairs sig.raw = [] →
        preloadSignal mgr sid idx =
          (some ⟨idx, PreloadStatus.error "All NaN values"⟩, mgr)) ∧
      (sig.data = none → sig.raw ≠ [] → finitePairs sig.raw ≠ [] →
        preloadSignal mgr sid idx = (some ⟨idx, PreloadStatus.ready⟩,
          setSignalData mgr sid idx (sig.raw.map Prod.fst, interpValues sig.raw)) ∧
          (interpValues sig.raw).length = sig.raw.length ∧
          (∀ j, j < sig.raw.length → ∀ v, (sig.raw.getD j (0, none)).2 = some v →
            (interpValues sig.raw).getD j 0 = v) ∧
          ((sig.raw.map Prod.fst).Pairwise (· < ·) →
            ∀ j, j < sig.raw.length → (sig.raw.getD j (0, none)).2 = none →
              (interpValues sig.raw).getD j 0 = specInterp sig.raw j)) := by
  have hunfold : preloadSignal mgr sid idx =
      (match sig.data with
        | some _ => (some ⟨idx, PreloadStatus.ready⟩, mgr)
        | none =>
          if sig.raw = [] then (some ⟨idx, PreloadStatus.error "Signal empty"⟩, mgr)
          else if finitePairs sig.raw = [] then
            (some ⟨idx, PreloadStatus.error "All NaN values"⟩, mgr)
          else
            (some ⟨idx, PreloadStatus.ready⟩,
              setSignalData mgr sid idx (sig.raw.map Prod.fst, interpValues sig.raw))) := by
    unfold preloadSignal
    rw [hfind]
    simp only [hlisted, Bool.true_eq_false, if_false]
    rw [hsig]
  refine ⟨?_, ?_, ?_, ?_⟩
  · intro d hd
    rw [hunfold, hd]
  · intro hd hraw
    rw [hunfold, hd]
    simp only [if_pos hraw]
  · intro hd hraw hfin
    rw [hunfold, hd]
    rw [if_neg hraw, if_pos hfin]
  · intro hd hraw hfin
    refine ⟨?_, ?_, ?_, ?_⟩
    · rw [hunfold, hd]
      rw [if_neg hraw, if_neg hfin]
    · unfold interpValues
      rw [List.length_map]
    · intro j hj v hv
      have hget : sig.raw.getD j ((0 : ℚ), (none : Option ℚ)) = sig.raw[j] := by
        simp [List.getD, List.getElem?_eq_getElem hj]
      rw [hget] at hv
      unfold interpValues
      simp only [List.getD, List.get?_eq_getElem?, List.getElem?_map,
        List.getElem?_eq_getElem hj]
      show (match sig.raw[j].2 with
        | some v => v
        | none => npInterp sig.raw[j].1 ((finitePairs sig.raw).headD (0, 0)).2
            ((finitePairs sig.raw).getLastD (0, 0)).2 (finitePairs sig.raw)) = _
      rw [hv]
    · intro hsort j hj hnone
      exact interpValues_getD sig.raw hsort hfin j hj hnone

/-- **C7** witness: the theorem applied at a one-session manager whose
signal has samples `(0,1), (1,NaN), (2,3)`; the non-finite middle sample
is replaced by the interpolant at `t = 1`, namely `2`. -/
theorem preloadSignal_spec_witness :
    preloadSignal [("s", ⟨true, [(0, ⟨[((0 : ℚ), some (1 : ℚ)), (1, none), (2, some 3)],
        none⟩)]⟩)] "s" 0 =
      (some ⟨0, PreloadStatus.ready⟩,
        setSignalData [("s", ⟨true, [(0, ⟨[((0 : ℚ), some (1 : ℚ)), (1, none), (2, some 3)],
            none⟩)]⟩)] "s" 0
          (([((0 : ℚ), some (1 : ℚ)), (1, none), (2, some 3)]).map Prod.fst,
            interpValues [((0 : ℚ), some (1 : ℚ)), (1, none), (2, some 3)])) ∧
      (interpValues [((0 : ℚ), some (1 : ℚ)), (1, none), (2, some 3)]).getD 1 0 =
        specInterp [((0 : ℚ), some (1 : ℚ)), (1, none), (2, some 3)] 1 ∧
      (interpValues [((0 : ℚ), some (1 : ℚ)), (1, none), (2, some 3)]).getD 1 0 = 2 := by
  obtain ⟨-, -, -, hmain⟩ := preloadSignal_spec
    [("s", ⟨true, [(0, ⟨[((0 : ℚ), some (1 : ℚ)), (1, none), (2, some 3)], none⟩)]⟩)]
    "s" 0 "s" ⟨true, [(0, ⟨[((0 : ℚ), some (1 : ℚ)), (1, none), (2, some 3)], none⟩)]⟩
    ⟨[((0 : ℚ), some (1 : ℚ)), (1, none), (2, some 3)], none⟩
    (by simp) rfl (by simp)
  obtain ⟨h1, h2, h3, h4⟩ := hmain rfl (by simp) (by simp [finitePairs])
  have hsort : (([((0 : ℚ), some (1 : ℚ)), (1, none), (2, some 3)]).map Prod.fst).Pairwise
      (· < ·) := by
    norm_num [List.pairwise_cons]
  have hspec := h4 hsort 1 (by norm_num) (by simp)
  refine ⟨h1, hspec, ?_⟩
  rw [hspec]
  norm_num [specInterp, prevFinite, nextFinite, finitePairs]

/-! ## `sandbox.py` — static validation gate (C5)

The Python AST is embedded with one constructor per node kind the
`CodeValidator` dispatches on, plus `other` for every remaining kind
(module, assignments, operators, …), which the validator only recurses
into.  `alias`/`withitem` wrapper nodes carry no checks and are folded
into their parents (the node counter therefore counts the modelled nodes;
an over-limit traversal still reports the complexity error, which is all
the claim needs).  Validator messages keep the French wording without the
interpolated quoting. -/

inductive PyNode where
  | importStmt (names : List String)
  | importFrom (module : Option String)
  | call (func : PyNode) (args : List PyNode)
  | attrGet (value : PyNode) (attr : String)
  | name (id : String)
  | strConst (len : ℕ)
  | withStmt (items : List PyNode) (body : List PyNode)
  | asyncFunctionDef (body : List PyNode)
  | awaitExpr (value : PyNode)
  | lambda (body : PyNode)
  | globalStmt
  | nonlocalStmt
  | other (children : List PyNode)

def ALLOWED_MODULES : List String :=
  ["numpy", "np", "pandas", "pd", "statistics", "math", "decimal", "fractions",
   "collections", "itertools", "functools", "datetime", "re", "string", "json", "typing"]

def FORBIDDEN_ATTRS : List String :=
  ["__import__", "__loader__", "__spec__", "__builtins__", "__globals__", "__locals__",
   "__code__", "__closure__", "__func__", "__self__", "__dict__", "__class__", "__bases__",
   "__mro__", "__subclasses__", "__init_subclass__", "__reduce__", "__reduce_ex__",
   "_getframe", "_current_frames", "gi_frame", "gi_code", "f_globals", "f_locals", "f_code",
   "f_back", "co_code", "func_globals", "func_code", "tb_frame", "tb_next"]

def FORBIDDEN_NAMES : List String :=
  ["eval", "exec", "compile", "execfile", "open", "file", "input", "raw_input", "reload",
   "__import__", "globals", "locals", "vars", "dir", "getattr", "setattr", "delattr",
   "memoryview", "bytearray", "breakpoint", "credits", "license", "copyright", "exit",
   "quit", "help"]

def dangerousMethods : List String :=
  ["system", "popen", "spawn", "call", "run", "Popen", "listdir", "remove", "rmdir",
   "unlink", "makedirs", "mkdir", "environ", "getenv", "putenv", "load", "loads", "dump",
   "dumps", "read", "write", "readline", "readlines"]

def allowedDunders : List String :=
  ["__name__", "__doc__", "__str__", "__repr__", "__len__", "__iter__", "__next__",
   "__add__", "__sub__", "__mul__", "__truediv__", "__floordiv__", "__mod__", "__eq__",
   "__ne__", "__lt__", "__le__", "__gt__", "__ge__", "__bool__", "__int__", "__float__",
   "__abs__", "__neg__", "__pos__"]

def MAX_AST_NODES : ℕ := 10000

def MAX_STRING_LENGTH : ℕ := 100000

def MAX_CODE_LENGTH : ℕ := 500000

def isDunder (s : String) : Bool := s.startsWith "__" && s.endsWith "__"

/-- `alias.name.split(".")[0]` / `node.module.split(".")[0]`. -/
def firstComponent (s : String) : String := (s.splitOn ".").headD ""

/-- The errors the dispatched `visit_*` method appends at this node
(before `generic_visit` recurses into the children). -/
def nodeErrors : PyNode → List String
  | .importStmt names => names.filterMap (fun nm =>
      if firstComponent nm ∈ ALLOWED_MODULES then none
      else some ("Import interdit: " ++ nm))
  | .importFrom m =>
    match m with
    | some mod =>
      if firstComponent mod ∈ ALLOWED_MODULES then [] else ["Import interdit: from " ++ mod]
    | none => []
  | .call f _ =>
    (match f with
     | .name id => if id ∈ FORBIDDEN_NAMES then ["Fonction interdite: " ++ id] else []
     | .attrGet v attr =>
       if attr ∈ dangerousMethods then
         (match v with
          | .name vid =>
            if vid = "json" ∧ attr ∈ ["loads", "dumps", "load", "dump"] then []
            else ["Methode potentiellement dangereuse: " ++ attr]
          | _ => ["Methode potentiellement dangereuse: " ++ attr])
       else []
     | _ => [])
  | .attrGet _ attr =>
    (if attr ∈ FORBIDDEN_ATTRS then ["Attribut interdit: " ++ attr] else []) ++
      (if isDunder attr ∧ ¬ attr ∈ allowedDunders then ["Attribut dunder interdit: " ++ attr]
       else [])
  | .name id =>
    (if id ∈ FORBIDDEN_NAMES then ["Nom interdit: " ++ id] else []) ++
      (if isDunder id then ["Nom dunder interdit: " ++ id] else [])
  | .strConst len => if MAX_STRING_LENGTH < len then ["Chaine trop longue"] else []
  | .withStmt items _ => items.filterMap (fun it =>
      match it with
      | .call (.name fid) _ => if fid = "open" then some "open interdit" else none
      | _ => none)
  | .asyncFunctionDef _ => ["Fonctions async interdites"]
  | .awaitExpr _ => ["await interdit"]
  | .lambda _ => []
  | .globalStmt => ["global interdit"]
  | .nonlocalStmt => ["nonlocal interdit"]
  | .other _ => []

structure VState where
  errs : List String
  count : ℕ

mutual

/-- `CodeValidator.visit` / `generic_visit`: bump the node counter, stop
with the complexity error past `MAX_AST_NODES`, otherwise append this
node's errors and recurse into the children. -/
def visit (s : VState) (n : PyNode) : VState :=
  if MAX_AST_NODES < s.count + 1 then ⟨s.errs ++ ["Code trop complexe"], s.count + 1⟩
  else
    match n with
    | .importStmt ns => ⟨s.errs ++ nodeErrors (.importStmt ns), s.count + 1⟩
    | .importFrom m => ⟨s.errs ++ nodeErrors (.importFrom m), s.count + 1⟩
    | .call f args =>
      visitChildren (visit ⟨s.errs ++ nodeErrors (.call f args), s.count + 1⟩ f) args
    | .attrGet v attr =>
      visit ⟨s.errs ++ nodeErrors (.attrGet v attr), s.count + 1⟩ v
    | .name id => ⟨s.errs ++ nodeErrors (.name id), s.count + 1⟩
    | .strConst len => ⟨s.errs ++ nodeErrors (.strConst len), s.count + 1⟩
    | .withStmt items body =>
      visitChildren (visitChildren ⟨s.errs ++ nodeErrors (.withStmt items body),
        s.count + 1⟩ items) body
    | .asyncFunctionDef body =>
      visitChildren ⟨s.errs ++ nodeErrors (.asyncFunctionDef body), s.count + 1⟩ body
    | .awaitExpr v => visit ⟨s.errs ++ nodeErrors (.awaitExpr v), s.count + 1⟩ v
    | .lambda b => visit ⟨s.errs ++ nodeErrors (.lambda b), s.count + 1⟩ b
    | .globalStmt => ⟨s.errs ++ nodeErrors .globalStmt, s.count + 1⟩
    | .nonlocalStmt => ⟨s.errs ++ nodeErrors .nonlocalStmt, s.count + 1⟩
    | .other cs => visitChildren ⟨s.errs, s.count + 1⟩ cs

def visitChildren (s : VState) : List PyNode → VState
  | [] => s
  | c :: cs => visitChildren (visit s c) cs

end

mutual

/-- A node (or one of its descendants) matches a deny-listed construct:
exactly the conditions under which some `visit_*` appends an error. -/
def hasDeny : PyNode → Bool
  | .importStmt ns => !(nodeErrors (.importStmt ns)).isEmpty
  | .importFrom m => !(nodeErrors (.importFrom m)).isEmpty
  | .call f args => !(nodeErrors (.call f args)).isEmpty || hasDeny f || hasDenyList args
  | .attrGet v attr => !(nodeErrors (.attrGet v attr)).isEmpty || hasDeny v
  | .name id => !(nodeErrors (.name id)).isEmpty
  | .strConst len => !(nodeErrors (.strConst len)).isEmpty
  | .withStmt items body =>
    !(nodeErrors (.withStmt items body)).isEmpty || hasDenyList items || hasDenyList body
  | .asyncFunctionDef _ => true
  | .awaitExpr _ => true
  | .lambda b => hasDeny b
  | .globalStmt => true
  | .nonlocalStmt => true
  | .other cs => hasDenyList cs

def hasDenyList : List PyNode → Bool
  | [] => false
  | c :: cs => hasDeny c || hasDenyList cs

end

theorem visit_eq_over (s : VState) (n : PyNode) (hcnt : MAX_AST_NODES < s.count + 1) :
    visit s n = ⟨s.errs ++ ["Code trop complexe"], s.count + 1⟩ := by
  conv_lhs => unfold visit
  rw [if_pos hcnt]

theorem visit_eq_under (s : VState) (n : PyNode) (hcnt : ¬ MAX_AST_NODES < s.count + 1) :
    visit s n =
      (match n with
        | .importStmt ns => ⟨s.errs ++ nodeErrors (.importStmt ns), s.count + 1⟩
        | .importFrom m => ⟨s.errs ++ nodeErrors (.importFrom m), s.count + 1⟩
        | .call f args =>
          visitChildren (visit ⟨s.errs ++ nodeErrors (.call f args), s.count + 1⟩ f) args
        | .attrGet v attr =>
          visit ⟨s.errs ++ nodeErrors (.attrGet v attr), s.count + 1⟩ v
        | .name id => ⟨s.errs ++ nodeErrors (.name id), s.count + 1⟩
        | .strConst len => ⟨s.errs ++ nodeErrors (.strConst len), s.count + 1⟩
        | .withStmt items body =>
          visitChildren (visitChildren ⟨s.errs ++ nodeErrors (.withStmt items body),
            s.count + 1⟩ items) body
        | .asyncFunctionDef body =>
          visitChildren ⟨s.errs ++ nodeErrors (.asyncFunctionDef body), s.count + 1⟩ body
        | .awaitExpr v => visit ⟨s.errs ++ nodeErrors (.awaitExpr v), s.count + 1⟩ v
        | .lambda b => visit ⟨s.errs ++ nodeErrors (.lambda b), s.count + 1⟩ b
        | .globalStmt => ⟨s.errs ++ nodeErrors .globalStmt, s.count + 1⟩
        | .nonlocalStmt => ⟨s.errs ++ nodeErrors .nonlocalStmt, s.count + 1⟩
        | .other cs => visitChildren ⟨s.errs, s.count + 1⟩ cs : VState) := by
  conv_lhs => unfold visit
  rw [if_neg hcnt]

mutual

/-- If the traversal ends with no errors, it started with none and the
subtree contains no deny-listed construct (contrapositive of C5's core). -/
theorem visit_errs_nil (s : VState) (n : PyNode) (h : (visit s n).errs = []) :
    s.errs = [] ∧ hasDeny n = false := by
  by_cases hcnt : MAX_AST_NODES < s.count + 1
  · rw [visit_eq_over s n hcnt] at h
    simp at h
  · rw [visit_eq_under s n hcnt] at h
    cases n with
    | importStmt ns =>
      replace h : s.errs ++ nodeErrors (.importStmt ns) = [] := h
      rw [List.append_eq_nil] at h
      exact ⟨h.1, by simp [hasDeny, h.2]⟩
    | importFrom m =>
      replace h : s.errs ++ nodeErrors (.importFrom m) = [] := h
      rw [List.append_eq_nil] at h
      exact ⟨h.1, by simp [hasDeny, h.2]⟩
    | call f args =>
      replace h : (visitChildren (visit ⟨s.errs ++ nodeErrors (.call f args), s.count + 1⟩ f)
          args).errs = [] := h
      obtain ⟨h1, hdl⟩ := visitChildren_errs_nil _ args h
      obtain ⟨h2, hdf⟩ := visit_errs_nil _ f h1
      rw [List.append_eq_nil] at h2
      exact ⟨h2.1, by simp [hasDeny, h2.2, hdf, hdl]⟩
    | attrGet v attr =>
      replace h : (visit ⟨s.errs ++ nodeErrors (.attrGet v attr), s.count + 1⟩ v).errs = [] := h
      obtain ⟨h2, hdv⟩ := visit_errs_nil _ v h
      rw [List.append_eq_nil] at h2
      exact ⟨h2.1, by simp [hasDeny, h2.2, hdv]⟩
    | name id =>
      replace h : s.errs ++ nodeErrors (.name id) = [] := h
      rw [List.append_eq_nil] at h
      exact ⟨h.1, by simp [hasDeny, h.2]⟩
    | strConst len =>
      replace h : s.errs ++ nodeErrors (.strConst len) = [] := h
      rw [List.append_eq_nil] at h
      exact ⟨h.1, by simp [hasDeny, h.2]⟩
    | withStmt items body =>
      replace h : (visitChildren (visitChildren ⟨s.errs ++ nodeErrors (.withStmt items body),
          s.count + 1⟩ items) body).errs = [] := h
      obtain ⟨h1, hdb⟩ := visitChildren_errs_nil _ body h
      obtain ⟨h2, hdi⟩ := visitChildren_errs_nil _ items h1
      rw [List.append_eq_nil] at h2
      exact ⟨h2.1, by simp [hasDeny, h2.2, hdi, hdb]⟩
    | asyncFunctionDef body =>
      replace h : (visitChildren ⟨s.errs ++ nodeErrors (.asyncFunctionDef body),
          s.count + 1⟩ body).errs = [] := h
      obtain ⟨h2, -⟩ := visitChildren_errs_nil _ body h
      simp [nodeErrors] at h2
    | awaitExpr v =>
      replace h : (visit ⟨s.errs ++ nodeErrors (.awaitExpr v), s.count + 1⟩ v).errs = [] := h
      obtain ⟨h2, -⟩ := visit_errs_nil _ v h
      simp [nodeErrors] at h2
    | lambda b =>
      replace h : (visit ⟨s.errs ++ nodeErrors (.lambda b), s.count + 1⟩ b).errs = [] := h
      obtain ⟨h2, hdb⟩ := visit_errs_nil _ b h
      rw [List.append_eq_nil] at h2
      exact ⟨h2.1, by simp [hasDeny, hdb]⟩
    | globalStmt =>
      replace h : s.errs ++ nodeErrors .globalStmt = [] := h
      simp [nodeErrors] at h
    | nonlocalStmt =>
      replace h : s.errs ++ nodeErrors .nonlocalStmt = [] := h
      simp [nodeErrors] at h
    | other cs =>
      replace h : (visitChildren ⟨s.errs, s.count + 1⟩ cs).errs = [] := h
      obtain ⟨h2, hdl⟩ := visitChildren_errs_nil _ cs h
      exact ⟨h2, by simp [hasDeny, hdl]⟩

theorem visitChildren_errs_nil (s : VState) (l : List PyNode)
    (h : (visitChildren s l).errs = []) : s.errs = [] ∧ hasDenyList l = false := by
  match l with
  | [] => exact ⟨h, rfl⟩
  | c :: cs =>
    have h' : (visitChildren (visit s c) cs).errs = [] := h
    obtain ⟨h1, hdl⟩ := visitChildren_errs_nil (visit s c) cs h'
    obtain ⟨h2, hdc⟩ := visit_errs_nil s c h1
    exact ⟨h2, by simp [hasDenyList, hdc, hdl]⟩

end

structure PyCode where
  srcLen : ℕ
  tree : PyNode

/-- `validate_code`: the source-length gate, then the AST traversal (the
embedding takes the parsed tree as given, so the `SyntaxError` branch is
out of scope). -/
def validateCode (c : PyCode) : List String :=
  if MAX_CODE_LENGTH < c.srcLen then ["Code trop long"]
  else (visit ⟨[], 0⟩ c.tree).errs

/-- The code contains at least one deny-listed construct (oversized code,
or a deny-listed node anywhere in the tree). -/
def hasDenyCode (c : PyCode) : Bool :=
  decide (MAX_CODE_LENGTH < c.srcLen) || hasDeny c.tree

structure ExecutionResult where
  success : Bool
  output : String
  error : Option String
deriving DecidableEq

/-- `"Code non autorisé:"` followed by the bullet list of validator
errors (interpolation flattened to a plain join). -/
def formatErrors (errs : List String) : String :=
  "Code non autorise:" ++ String.intercalate "\n" errs

/-- `safe_execute`: static validation first; only when it reports no
errors is the worker process spawned (the dynamic stage is opaque, an
arbitrary `dyn` outcome).  The second component records whether a child
process was spawned. -/
def safeExecute (dyn : ExecutionResult) (c : PyCode) : ExecutionResult × Bool :=
  if validateCode c = [] then (dyn, true)
  else (⟨false, "", some (formatErrors (validateCode c))⟩, false)

/-- **C5** (confirmed): any code containing a deny-listed construct fails
static validation with at least one error naming the violation, and
`safe_execute` returns `success = false` with the formatted validation
error without ever spawning the worker process. -/
theorem safeExecute_static_gate (dyn : ExecutionResult) (c : PyCode)
    (hdeny : hasDenyCode c = true) :
    validateCode c ≠ [] ∧
      safeExecute dyn c = (⟨false, "", some (formatErrors (validateCode c))⟩, false) := by
  have hne : validateCode c ≠ [] := by
    unfold validateCode
    unfold hasDenyCode at hdeny
    by_cases hlen : MAX_CODE_LENGTH < c.srcLen
    · rw [if_pos hlen]
      simp
    · rw [if_neg hlen]
      simp only [decide_eq_true_eq, Bool.or_eq_true] at hdeny
      rcases hdeny with h | h
      · exact absurd h hlen
      · intro hnil
        have := (visit_errs_nil ⟨[], 0⟩ c.tree hnil).2
        rw [this] at h
        exact Bool.false_ne_true h
  refine ⟨hne, ?_⟩
  unfold safeExecute
  rw [if_neg hne]

/-- **C5** witness: the theorem applied at the concrete program
`eval(...)` (a forbidden name in call position): validation reports an
error and no process is spawned, whatever the dynamic stage would have
returned. -/
theorem safeExecute_static_gate_witness :
    hasDenyCode ⟨10, PyNode.call (PyNode.name "eval") []⟩ = true ∧
      validateCode ⟨10, PyNode.call (PyNode.name "eval") []⟩ ≠ [] ∧
      safeExecute ⟨true, "", none⟩ ⟨10, PyNode.call (PyNode.name "eval") []⟩ =
        (⟨false, "",
          some (formatErrors (validateCode ⟨10, PyNode.call (PyNode.name "eval") []⟩))⟩,
          false) := by
  have hdeny : hasDenyCode ⟨10, PyNode.call (PyNode.name "eval") []⟩ = true := by
    simp [hasDenyCode, hasDeny, nodeErrors, FORBIDDEN_NAMES, MAX_CODE_LENGTH]
  obtain ⟨h1, h2⟩ := safeExecute_static_gate ⟨true, "", none⟩
    ⟨10, PyNode.call (PyNode.name "eval") []⟩ hdeny
  exact ⟨hdeny, h1, h2⟩

/-! ## `server.py` — `get_lazy_eda_view` (C8)

The loaded signals are a positional store (`None` = unavailable or not
loaded); each loaded signal is its list of `(timestamp, value)` samples.
The request carries the signal indices (truncated to 50), the `[start,
end]` window and the raw `max_points` integer. -/

/-- `max_points = max(100, min(max_points, 10000))`. -/
def clampMaxPoints (raw : ℤ) : ℕ := (max 100 (min raw 10000)).toNat

/-- `timestamps[(timestamps >= start) & (timestamps <= end)]` (and the
matching values). -/
def clipWindow (pts : List (ℚ × ℚ)) (start stop : ℚ) : List (ℚ × ℚ) :=
  pts.filter (fun p => start ≤ p.1 ∧ p.1 ≤ stop)

def listMin : List ℚ → ℚ
  | [] => 0
  | a :: as => as.foldl min a

def listMax : List ℚ → ℚ
  | [] => 0
  | a :: as => as.foldl max a

structure SignalOut where
  index : ℕ
  ts : List ℚ
  vs : List ℚ
  isComplete : Bool
  statMin : ℚ
  statMax : ℚ
deriving DecidableEq

/-- The per-signal body of the view loop: skip unavailable signals and
empty windows; otherwise clip, compute the stats over the clipped window,
and LTTB-downsample only when the clipped length exceeds `max_points`. -/
def processSignal (store : List (Option (List (ℚ × ℚ)))) (start stop : ℚ) (mp : ℕ)
    (idx : ℕ) : Option SignalOut :=
  match store.getD idx none with
  | none => none
  | some pts =>
    if clipWindow pts start stop = [] then none
    else
      some ⟨idx,
        (if mp < (clipWindow pts start stop).length then
          lttb ((clipWindow pts start stop).map Prod.fst)
            ((clipWindow pts start stop).map Prod.snd) mp
        else ((clipWindow pts start stop).map Prod.fst,
          (clipWindow pts start stop).map Prod.snd)).1,
        (if mp < (clipWindow pts start stop).length then
          lttb ((clipWindow pts start stop).map Prod.fst)
            ((clipWindow pts start stop).map Prod.snd) mp
        else ((clipWindow pts start stop).map Prod.fst,
          (clipWindow pts start stop).map Prod.snd)).2,
        decide ((clipWindow pts start stop).length ≤ mp),
        listMin ((clipWindow pts start stop).map Prod.snd),
        listMax ((clipWindow pts start stop).map Prod.snd)⟩

/-- `get_lazy_eda_view`: clamp `max_points`, truncate to 50 signals,
process each requested signal, and answer 404 (`none`) when no signal
contributed. -/
def getEdaView (store : List (Option (List (ℚ × ℚ)))) (indices : List ℕ)
    (start stop : ℚ) (mpRaw : ℤ) : Option (List SignalOut) :=
  if (indices.take 50).filterMap (processSignal store start stop (clampMaxPoints mpRaw)) = []
  then none
  else some ((indices.take 50).filterMap (processSignal store start stop (clampMaxPoints mpRaw)))

theorem lttb_length (xs ys : List ℚ) (t : ℕ) (h2 : 2 < t) (hn : t < xs.length) :
    (lttb xs ys t).1.length = t ∧ (lttb xs ys t).2.length = t := by
  obtain ⟨hlen, -, -, -, -, heq, -⟩ := lttb_output_spec xs ys t h2 hn
  rw [heq]
  simp [hlen]

/-- **C8** (confirmed): `max_points` is clamped to `[100, 10000]`; each
returned signal's `min`/`max` stats are computed over the clipped window
before any downsampling; `is_complete` holds iff the clipped length did
not exceed `max_points`; each returned signal carries at most
`max_points` points; and when no requested signal has a sample in the
window the response is a 404 (`none`). -/
theorem getEdaView_spec (store : List (Option (List (ℚ × ℚ)))) (indices : List ℕ)
    (start stop : ℚ) (mpRaw : ℤ) :
    100 ≤ clampMaxPoints mpRaw ∧ clampMaxPoints mpRaw ≤ 10000 ∧
      (∀ idx pts out, store.getD idx none = some pts →
        processSignal store start stop (clampMaxPoints mpRaw) idx = some out →
        out.statMin = listMin ((clipWindow pts start stop).map Prod.snd) ∧
          out.statMax = listMax ((clipWindow pts start stop).map Prod.snd) ∧
          (out.isComplete = true ↔
            (clipWindow pts start stop).length ≤ clampMaxPoints mpRaw) ∧
          out.ts.length ≤ clampMaxPoints mpRaw ∧ out.vs.length ≤ clampMaxPoints mpRaw) ∧
      ((∀ idx ∈ indices.take 50, store.getD idx none = none ∨
          clipWindow ((store.getD idx none).getD []) start stop = []) →
        getEdaView store indices start stop mpRaw = none) := by
  have hclamp1 : 100 ≤ clampMaxPoints mpRaw := by
    unfold clampMaxPoints
    omega
  have hclamp2 : clampMaxPoints mpRaw ≤ 10000 := by
    unfold clampMaxPoints
    omega
  refine ⟨hclamp1, hclamp2, ?_, ?_⟩
  · intro idx pts out hstore hproc
    unfold processSignal at hproc
    rw [hstore] at hproc
    dsimp only at hproc
    by_cases hclip : clipWindow pts start stop = []
    · rw [if_pos hclip] at hproc
      exact absurd hproc (by simp)
    · rw [if_neg hclip] at hproc
      have hout := Option.some_inj.1 hproc
      subst hout
      refine ⟨rfl, rfl, by simp, ?_, ?_⟩
      · by_cases hlen : clampMaxPoints mpRaw < (clipWindow pts start stop).length
        · simp only [if_pos hlen]
          have h2 : 2 < clampMaxPoints mpRaw := by omega
          have hn : clampMaxPoints mpRaw < ((clipWindow pts start stop).map Prod.fst).length := by
            rw [List.length_map]
            exact hlen
          exact le_of_eq (lttb_length _ _ _ h2 hn).1
        · simp only [if_neg hlen]
          rw [List.length_map]
          omega
      · by_cases hlen : clampMaxPoints mpRaw < (clipWindow pts start stop).length
        · simp only [if_pos hlen]
          have h2 : 2 < clampMaxPoints mpRaw := by omega
          have hn : clampMaxPoints mpRaw < ((clipWindow pts start stop).map Prod.fst).length := by
            rw [List.length_map]
            exact hlen
          exact le_of_eq (lttb_length _ _ _ h2 hn).2
        · simp only [if_neg hlen]
          rw [List.length_map]
          omega
  · intro hmiss
    unfold getEdaView
    rw [if_pos ?hnil]
    case hnil =>
      rw [List.filterMap_eq_nil_iff]
      intro idx hidx
      rcases hmiss idx hidx with h | h
      · unfold processSignal
        rw [h]
      · cases hstore : store.getD idx none with
        | none => unfold processSignal; rw [hstore]
        | some pts =>
          unfold processSignal
          rw [hstore]
          dsimp only
          rw [hstore] at h
          simp only [Option.getD_some] at h
          rw [if_pos h]

/-- **C8** witness: the theorem applied at a concrete store — one loaded
two-sample signal fully inside the window (stats `5`/`7`, complete,
within the cap) and, separately, a store with no loadable signal (404) —
with every inner hypothesis discharged. -/
theorem getEdaView_spec_witness :
    (100 ≤ clampMaxPoints 5 ∧ clampMaxPoints 5 ≤ 10000) ∧
      ((⟨0, [0, 1], [5, 7], true, 5, 7⟩ : SignalOut).statMin =
          listMin ((clipWindow [((0 : ℚ), (5 : ℚ)), (1, 7)] 0 10).map Prod.snd) ∧
        (⟨0, [0, 1], [5, 7], true, 5, 7⟩ : SignalOut).statMax =
          listMax ((clipWindow [((0 : ℚ), (5 : ℚ)), (1, 7)] 0 10).map Prod.snd) ∧
        ((⟨0, [0, 1], [5, 7], true, 5, 7⟩ : SignalOut).isComplete = true ↔
          (clipWindow [((0 : ℚ), (5 : ℚ)), (1, 7)] 0 10).length ≤ clampMaxPoints 5) ∧
        (⟨0, [0, 1], [5, 7], true, 5, 7⟩ : SignalOut).ts.length ≤ clampMaxPoints 5 ∧
        (⟨0, [0, 1], [5, 7], true, 5, 7⟩ : SignalOut).vs.length ≤ clampMaxPoints 5) ∧
      getEdaView [none] [0] 0 10 5 = none := by
  obtain ⟨h1, h2, h3, -⟩ :=
    getEdaView_spec [some [((0 : ℚ), (5 : ℚ)), (1, 7)], none] [0] 0 10 5
  obtain ⟨-, -, -, g4⟩ := getEdaView_spec [none] [0] 0 10 5
  have hclamp : clampMaxPoints 5 = 100 := by rfl
  have hproc : processSignal [some [((0 : ℚ), (5 : ℚ)), (1, 7)], none] 0 10
      (clampMaxPoints 5) 0 = some ⟨0, [0, 1], [5, 7], true, 5, 7⟩ := by
    rw [hclamp]
    norm_num [processSignal, clipWindow, listMin, listMax, List.filter]
    intro hcontra
    simp at hcontra
  refine ⟨⟨h1, h2⟩, h3 0 [((0 : ℚ), (5 : ℚ)), (1, 7)] ⟨0, [0, 1], [5, 7], true, 5, 7⟩ rfl hproc,
    g4 ?_⟩
  intro idx hidx
  simp only [List.take, List.mem_singleton] at hidx
  subst hidx
  exact Or.inl rfl

end BaltimoreBird
